import Mathlib

/-!
Shallow embedding of GitSavvy's `core/parse_diff.py` and verification of its
specification.  Text is modelled as `List Char`; Python `int` offsets as `Int`;
Python exceptions as `Except`; Python `None` as `Option.none`.
-/

namespace ParseDiff

/-- The marker tags recognized by the scanner regex `^(commit|diff|@@)`, plus the
synthetic `END` sentinel appended in `SplittedDiff.from_string`. -/
inductive Tag
  | commit
  | diff
  | hunk
  | END
deriving DecidableEq

/-- `TextRange`: a tagged slice of the original text, holding the substring and its
absolute start/end offsets (`__init__` stores `text`, `a`, `b`; equality is over the
`(text, a, b)` tuple). -/
structure TextRange where
  text : List Char
  a : Int
  b : Int
deriving DecidableEq

/-- `TextRange(text, a)` with the defaulted `b = a + len(text)`. -/
def TextRange.ofText (text : List Char) (a : Int := 0) : TextRange :=
  ⟨text, a, a + text.length⟩

/-- Modelled from the spec: `fns.pairwise` — the itertools-style sequence of
consecutive overlapping pairs (`fns.py` is outside the provided sources). -/
def pairwiseL {α : Type} : List α → List (α × α)
  | [] => []
  | [_] => []
  | x :: y :: rest => (x, y) :: pairwiseL (y :: rest)

/-- Modelled from the spec: `fns.accumulate` with an `initial` value — the running
prefix sums `[init, init + n₁, init + n₁ + n₂, ...]` (`fns.py` is outside the
provided sources). -/
def accumulateFrom (init : Int) : List Int → List Int
  | [] => [init]
  | n :: rest => init :: accumulateFrom (init + n) rest

/-- `^` in `re.M` mode: position `p` is at the start of a line. -/
def isLineStart (text : List Char) (p : Nat) : Bool :=
  p == 0 || text.get? (p - 1) == some '\n'

/-- The alternation `(commit|diff|@@)` applied at one position of the text. -/
def markerOf (s : List Char) : Option Tag :=
  if List.isPrefixOf ("commit".toList) s then some Tag.commit
  else if List.isPrefixOf ("diff".toList) s then some Tag.diff
  else if List.isPrefixOf ("@@".toList) s then some Tag.hunk
  else none

/-- `re.finditer(r'^(commit|diff|@@)', text, re.M)`: the `(tag, start)` pairs of all
marker matches, in document order.  (Matches carry no newline, so the scanner's
non-overlapping scan cannot skip any line-start candidate.) -/
def sections (text : List Char) : List (Tag × Nat) :=
  (List.range text.length).filterMap (fun p =>
    if isLineStart text p then (markerOf (text.drop p)).map (fun t => (t, p)) else none)

/-- Python slicing `text[s:e]` for `0 ≤ s`, with the usual clamping at the end. -/
def pySlice (text : List Char) (s e : Nat) : List Char :=
  (text.drop s).take (e - s)

/-- The loop body of `SplittedDiff.from_string`: each `(id, start), (_, end)` pair of
`pairwise(chain(sections, [('END', len(text) + 1)]))` becomes an entity
`factories[id](text[start:end], start + offset, end + offset)`, still carrying its
tag. -/
def taggedEntities (text : List Char) (offset : Int) : List (Tag × TextRange) :=
  (pairwiseL (sections text ++ [(Tag.END, text.length + 1)])).map
    (fun p => (p.1.1, ⟨pySlice text p.1.2 p.2.2, (p.1.2 : Int) + offset, (p.2.2 : Int) + offset⟩))

/-- `SplittedDiff`: the three ordered collections built by one scan of the text. -/
structure SplittedDiff where
  commits : List TextRange
  headers : List TextRange
  hunks : List TextRange
deriving DecidableEq

/-- `SplittedDiff.from_string(text, offset=0)`: bucket the scanned entities into the
three containers keyed by their tag, in document order. -/
def SplittedDiff.from_string (text : List Char) (offset : Int := 0) : SplittedDiff :=
  ⟨((taggedEntities text offset).filter (fun e => decide (e.1 = Tag.commit))).map (fun e => e.2),
   ((taggedEntities text offset).filter (fun e => decide (e.1 = Tag.diff))).map (fun e => e.2),
   ((taggedEntities text offset).filter (fun e => decide (e.1 = Tag.hunk))).map (fun e => e.2)⟩

/-- `SplittedDiff.hunk_for_pt(pt)`: the first hunk with `hunk.a <= pt < hunk.b`,
else `None`. -/
def SplittedDiff.hunk_for_pt (d : SplittedDiff) (pt : Int) : Option TextRange :=
  d.hunks.find? (fun h => decide (h.a ≤ pt ∧ pt < h.b))

/-- Python `max(..., key=lambda x: x.a)` over a list: the first element carrying the
maximal key (later elements replace the current best only on strictly larger key);
the result for the empty list models the `ValueError` raised by `max`. -/
def maxByAAux (m : TextRange) : List TextRange → TextRange
  | [] => m
  | x :: xs => maxByAAux (if m.a < x.a then x else m) xs

/-- See `maxByAAux`; `none` models `max`'s `ValueError` on an empty iterable. -/
def maxByA : List TextRange → Option TextRange
  | [] => none
  | x :: xs => some (maxByAAux x xs)

/-- `SplittedDiff.head_for_hunk(hunk)`: `max` over the headers starting strictly
before the hunk; `Except.error ()` models the `ValueError` escaping when no header
precedes the hunk. -/
def SplittedDiff.head_for_hunk (d : SplittedDiff) (hunk : TextRange) : Except Unit TextRange :=
  match maxByA (d.headers.filter (fun h => decide (h.a < hunk.a))) with
  | some m => Except.ok m
  | none => Except.error ()

/-- `SplittedDiff.commit_for_hunk(hunk)`: the same rule over the commits collection,
with the `ValueError` caught and turned into `None`. -/
def SplittedDiff.commit_for_hunk (d : SplittedDiff) (hunk : TextRange) : Option TextRange :=
  maxByA (d.commits.filter (fun c => decide (c.a < hunk.a)))

/-- Insertion step of a stable sort by an integer key (Python `sorted` is stable;
any stable sort computes the same list). -/
def insertByKey {α : Type} (key : α → Int) (x : α) : List α → List α
  | [] => [x]
  | y :: ys => if key x ≤ key y then x :: y :: ys else y :: insertByKey key x ys

/-- Stable sort by an integer key, modelling Python `sorted(..., key=...)`. -/
def sortByKey {α : Type} (key : α → Int) (l : List α) : List α :=
  l.foldr (insertByKey key) []

/-- `SplittedDiff.hunks_for_head(head)`:
`takewhile(isinstance Hunk, tail(dropwhile(x != head, sorted(headers + hunks, key=a))))`.
The elements of the merged sequence keep the class (tag) of the collection they come
from; `x != head` is `TextRange.__eq__`, i.e. tuple equality ignoring the class.
`fns.tail` (outside the provided sources) is modelled from the spec as dropping the
first element, which here is the located header itself. -/
def SplittedDiff.hunks_for_head (d : SplittedDiff) (head : TextRange) : List TextRange :=
  (((sortByKey (fun x => x.2.a)
      ((d.headers.map (fun h => (Tag.diff, h))) ++ (d.hunks.map (fun h => (Tag.hunk, h))))).dropWhile
        (fun x => decide (¬ x.2 = head))).drop 1).takeWhile (fun x => decide (x.1 = Tag.hunk))
    |>.map (fun x => x.2)

/-- The merged, start-sorted sequence of all entities of the three collections
(the collection a `SplittedDiff` value represents, used to state the partition
invariant). -/
def SplittedDiff.merged (d : SplittedDiff) : List TextRange :=
  sortByKey TextRange.a (d.commits ++ d.headers ++ d.hunks)

/-- The line-break characters of `str.splitlines` other than `'\r'`
(which additionally pairs with a following `'\n'`). -/
def isUnicodeLineBreak (c : Char) : Bool :=
  c == '\n' || c == '\x0b' || c == '\x0c' || c == '\x1c' || c == '\x1d' ||
    c == '\x1e' || c == '\x85' || c == '\u2028' || c == '\u2029'

/-- `str.splitlines(keepends=True)`: split into terminated lines, each line keeping
its line-ending characters; `acc` holds the current line, reversed. -/
def splitlinesAux : List Char → List Char → List (List Char)
  | acc, [] => if acc.isEmpty then [] else [acc.reverse]
  | acc, '\r' :: '\n' :: rest => (acc.reverse ++ ['\r', '\n']) :: splitlinesAux [] rest
  | acc, c :: rest =>
    if c == '\r' || isUnicodeLineBreak c then (acc.reverse ++ [c]) :: splitlinesAux [] rest
    else splitlinesAux (c :: acc) rest

/-- `text.splitlines(keepends=True)`. -/
def splitlinesKeepends (text : List Char) : List (List Char) :=
  splitlinesAux [] text

/-- `TextRange.lines()`:
`[factory(line, *a_b) for line, a_b in zip(lines, pairwise(accumulate(map(len, lines), initial=self.a)))]`. -/
def TextRange.lines (r : TextRange) : List TextRange :=
  (let ls := splitlinesKeepends r.text
   (ls.zip (pairwiseL (accumulateFrom r.a (ls.map (fun l => (l.length : Int)))))).map
    (fun p => ⟨p.1, p.2.1, p.2.2⟩))

/-- Python `str.split(sep)` for a one-character separator: split on every occurrence,
keeping empty segments (`"".split(' ') == ['']`). -/
def pySplit (sep : Char) : List Char → List (List Char)
  | [] => [[]]
  | c :: rest =>
    if c == sep then [] :: pySplit sep rest
    else
      match pySplit sep rest with
      | [] => [[c]]
      | g :: gs => (c :: g) :: gs

/-- `CommitHeader.commit_hash()`.  `self.text.index('\n')` raises `ValueError` when
the text holds no newline (modelled as `Except.error ()`); otherwise the first line
is inspected: if it starts with `"commit "`, `first_line.split(' ')[1]` is returned,
else `None`. -/
def CommitHeader.commit_hash (r : TextRange) : Except Unit (Option (List Char)) :=
  if '\n' ∈ r.text then
    (let first_line := r.text.takeWhile (fun c => c ≠ '\n')
     if List.isPrefixOf ("commit ".toList) first_line then
       Except.ok (some ((pySplit ' ' first_line).getD 1 []))
     else
       Except.ok none)
  else Except.error ()

/-- The text region in which `HEADER_TO_FILE_RE`'s `$` can anchor: the pattern is
compiled without `re.M`, so `$` matches only at the end of the text or just before
one final newline.  Since `.` and `\t` cannot match `'\n'`, every match lies inside
the final line of this region. -/
def lastLineForDollar (text : List Char) : List Char :=
  (let s := if text.getLast? == some '\n' then text.dropLast else text
   (s.reverse.takeWhile (fun c => c ≠ '\n')).reverse)

/-- Leftmost occurrence of `"+++ b/"` in the anchored line that leaves a nonempty
remainder for the capture group `(.+?)`; returns that remainder. -/
def findPlusB : List Char → Option (List Char)
  | [] => none
  | c :: rest =>
    if List.isPrefixOf ("+++ b/".toList) (c :: rest) && decide (6 < (c :: rest).length) then
      some ((c :: rest).drop 6)
    else findPlusB rest

/-- `FileHeader.from_filename()`: `HEADER_TO_FILE_RE.search(self.text)`, returning
the capture of `\+\+\+ b/(.+?)\t?$`.  The lazy group takes the shortest remainder
compatible with `\t?$`: a single trailing tab is stripped when the group stays
nonempty. -/
def FileHeader.from_filename (r : TextRange) : Option (List Char) :=
  match findPlusB (lastLineForDollar r.text) with
  | none => none
  | some L =>
    some (if 2 ≤ L.length ∧ L.getLast? = some '\t' then L.dropLast else L)

/-- `SAFE_PARSE_HUNK_HEADER = re.compile(r"[-+](\d+)(?:,(\d+))?")` support:
does the remaining input begin with a digit? -/
def startsWithDigit : List Char → Bool
  | [] => false
  | c :: _ => c.isDigit

/-- Numeric value of a digit run (`int(...)` on a `\d+` capture). -/
def digitsToNat (ds : List Char) : Nat :=
  ds.foldl (fun n c => n * 10 + (c.toNat - ('0').toNat)) 0

/-- The optional `(?:,(\d+))?` part after the mandatory digits: its value
(`int(length or "1")`, so an absent capture defaults to 1) and the input left for
the scan to resume on. -/
def parseLenPart : List Char → Nat × List Char
  | ',' :: r3 =>
    if startsWithDigit r3 then
      (digitsToNat (r3.takeWhile Char.isDigit), r3.dropWhile Char.isDigit)
    else (1, ',' :: r3)
  | r2 => (1, r2)

/-- `re.findall` of `[-+](\d+)(?:,(\d+))?`: left-to-right non-overlapping scan with
greedy digit runs.  Structural recursion on a fuel initialized to the input length;
every recursive call strictly shortens the input, so the fuel never runs out. -/
def findPairsAux : Nat → List Char → List (Nat × Nat)
  | 0, _ => []
  | _, [] => []
  | fuel + 1, c :: rest =>
    if (c == '-' || c == '+') && startsWithDigit rest then
      (let pr := parseLenPart (rest.dropWhile Char.isDigit)
       (digitsToNat (rest.takeWhile Char.isDigit), pr.1) :: findPairsAux fuel pr.2)
    else findPairsAux fuel rest

/-- See `findPairsAux`. -/
def findPairs (l : List Char) : List (Nat × Nat) :=
  findPairsAux l.length l

/-- `HunkHeader.safely_parse_metadata()`: all `(start, length)` pairs found in
`self.text.lstrip("@").split("@", 1)[0]`. -/
def HunkHeader.safely_parse_metadata (r : TextRange) : List (Nat × Nat) :=
  findPairs ((r.text.dropWhile (fun c => c == '@')).takeWhile (fun c => c ≠ '@'))

/-- The failure modes of `HunkHeader.parse`: the `UnsupportedCombinedDiff` exception
carrying the raw header text, and the `assert len(metadata) == 2` failure. -/
inductive HunkParseError
  | unsupportedCombinedDiff (text : List Char)
  | assertionFailed
deriving DecidableEq

/-- `HunkHeader.parse()`: raises `UnsupportedCombinedDiff(self.text)` when more than
two pairs are present, asserts `len(metadata) == 2`, then returns the flattened
4-tuple. -/
def HunkHeader.parse (r : TextRange) : Except HunkParseError (Nat × Nat × Nat × Nat) :=
  (let metadata := HunkHeader.safely_parse_metadata r
   if 2 < metadata.length then
     Except.error (HunkParseError.unsupportedCombinedDiff r.text)
   else
     match metadata with
     | [(os, ol), (ns, nl)] => Except.ok (os, ol, ns, nl)
     | _ => Except.error HunkParseError.assertionFailed)

/-- `HunkHeader.to_line_start()`: `self.safely_parse_metadata()[-1][0]`; `none`
models the `IndexError` of `[-1]` on an empty list. -/
def HunkHeader.to_line_start (r : TextRange) : Option Nat :=
  (HunkHeader.safely_parse_metadata r).getLast?.map Prod.fst

/-- Proof-side restatement of the `pairwise`/sentinel walk of
`SplittedDiff.from_string`, recursing directly on the section list (shown equal to
`taggedEntities` below). -/
def entsOf (text : List Char) (offset : Int) : List (Tag × Nat) → List (Tag × TextRange)
  | [] => []
  | [(t, s)] =>
    [(t, ⟨pySlice text s (text.length + 1), (s : Int) + offset,
          ((text.length + 1 : Nat) : Int) + offset⟩)]
  | (t, s) :: (t', s') :: rest =>
    (t, ⟨pySlice text s s', (s : Int) + offset, ((s' : Nat) : Int) + offset⟩) ::
      entsOf text offset ((t', s') :: rest)

/-- Proof-side restatement of the body of `TextRange.lines`, parameterized by the
start offset and the already-split lines. -/
def linesFrom (a : Int) (ls : List (List Char)) : List TextRange :=
  (ls.zip (pairwiseL (accumulateFrom a (ls.map (fun l => (l.length : Int)))))).map
    (fun p => ⟨p.1, p.2.1, p.2.2⟩)

/-! ## General list helper lemmas -/

theorem takeWhile_append_all {α} (p : α → Bool) {l₁ : List α} (l₂ : List α)
    (h : ∀ x ∈ l₁, p x = true) : (l₁ ++ l₂).takeWhile p = l₁ ++ l₂.takeWhile p := by
  induction l₁ with
  | nil => simp
  | cons x xs ih =>
    have hx := h x (by simp)
    simp [List.takeWhile_cons, hx, ih (fun y hy => h y (by simp [hy]))]

theorem dropWhile_append_cons {α} (p : α → Bool) {u : List α} {z : α} (v : List α)
    (hu : ∀ y ∈ u, p y = true) (hz : p z = false) :
    (u ++ z :: v).dropWhile p = z :: v := by
  induction u with
  | nil => simp [List.dropWhile_cons, hz]
  | cons x xs ih =>
    simp only [List.cons_append, List.dropWhile_cons, hu x (by simp)]
    exact ih (fun y hy => hu y (by simp [hy]))

theorem find?_append_first {α} (p : α → Bool) {u : List α} (rest : List α)
    (hu : ∀ y ∈ u, p y = false) : (u ++ rest).find? p = rest.find? p := by
  induction u with
  | nil => simp
  | cons x xs ih =>
    simp only [List.cons_append, List.find?_cons, hu x (by simp)]
    exact ih (fun y hy => hu y (by simp [hy]))

theorem find?_some_split {α} (p : α → Bool) : ∀ (l : List α) (x : α), l.find? p = some x →
    ∃ u v, l = u ++ x :: v ∧ (∀ y ∈ u, p y = false) ∧ p x = true := by
  intro l
  induction l with
  | nil => intro x hx; simp [List.find?] at hx
  | cons z zs ih =>
    intro x hx
    by_cases hz : p z = true
    · rw [List.find?_cons_of_pos _ hz] at hx
      have hzx : z = x := Option.some_inj.mp hx
      subst hzx
      exact ⟨[], zs, rfl, by simp, hz⟩
    · rw [List.find?_cons_of_neg _ hz] at hx
      obtain ⟨u, v, he, hall, hpx⟩ := ih x hx
      exact ⟨z :: u, v, by simp [he], by
        intro y hy
        rcases List.mem_cons.mp hy with h | h
        · subst h; exact Bool.eq_false_iff.mpr hz
        · exact hall y h, hpx⟩

theorem isPrefixOf_append_self (l r : List Char) : List.isPrefixOf l (l ++ r) = true := by
  induction l with
  | nil => simp [List.isPrefixOf]
  | cons x xs ih => simp [List.isPrefixOf, ih]

theorem isPrefixOf_exists {pl l : List Char} (h : List.isPrefixOf pl l = true) :
    ∃ v, l = pl ++ v := by
  induction pl generalizing l with
  | nil => exact ⟨l, rfl⟩
  | cons x xs ih =>
    cases l with
    | nil => simp [List.isPrefixOf] at h
    | cons y ys =>
      simp only [List.isPrefixOf, Bool.and_eq_true, beq_iff_eq] at h
      obtain ⟨v, hv⟩ := ih h.2
      exact ⟨v, by simp [h.1, hv]⟩

/-! ## `max(..., key=...)` over a list -/

theorem maxByAAux_spec : ∀ (l : List TextRange) (m : TextRange),
    (maxByAAux m l = m ∨ maxByAAux m l ∈ l) ∧ m.a ≤ (maxByAAux m l).a ∧
      ∀ x ∈ l, x.a ≤ (maxByAAux m l).a := by
  intro l
  induction l with
  | nil => intro m; exact ⟨Or.inl rfl, le_refl _, by simp⟩
  | cons x xs ih =>
    intro m
    simp only [maxByAAux]
    obtain ⟨hmem, hle, hall⟩ := ih (if m.a < x.a then x else m)
    constructor
    · rcases hmem with h | h
      · rw [h]; split
        · exact Or.inr (by simp)
        · exact Or.inl rfl
      · exact Or.inr (by simp [h])
    constructor
    · refine le_trans ?_ hle
      split
      · exact le_of_lt (by assumption)
      · exact le_refl _
    · intro y hy
      rcases List.mem_cons.mp hy with h | h
      · subst h
        refine le_trans ?_ hle
        split
        · exact le_refl _
        · exact le_of_not_lt (by assumption)
      · exact hall y h

theorem maxByA_spec {l : List TextRange} {m : TextRange} (h : maxByA l = some m) :
    m ∈ l ∧ ∀ x ∈ l, x.a ≤ m.a := by
  cases l with
  | nil => simp [maxByA] at h
  | cons x xs =>
    simp only [maxByA, Option.some_inj] at h
    obtain ⟨hmem, hle, hall⟩ := maxByAAux_spec xs x
    subst h
    refine ⟨?_, ?_⟩
    · rcases hmem with h | h
      · rw [h]; simp
      · simp [h]
    · intro y hy
      rcases List.mem_cons.mp hy with h | h
      · subst h; exact hle
      · exact hall y h

theorem maxByA_eq_none_iff (l : List TextRange) : maxByA l = none ↔ l = [] := by
  cases l <;> simp [maxByA]

/-! ## Claim C5: `head_for_hunk` vs `commit_for_hunk` -/

/-- C5: for every `SplittedDiff` and hunk `h`: when some file header starts strictly
before `h.a`, `head_for_hunk` returns a header of maximal start among those; when
none does it fails (propagating `max`'s `ValueError`).  `commit_for_hunk` applies
the identical nearest-preceding rule over the commits but returns `none` instead of
failing in the empty case. -/
theorem C5_head_for_hunk_strict_commit_for_hunk_tolerant :
    ∀ (d : SplittedDiff) (h : TextRange),
    ((∃ hd ∈ d.headers, hd.a < h.a) →
      ∃ m, d.head_for_hunk h = Except.ok m ∧ m ∈ d.headers ∧ m.a < h.a ∧
        ∀ x ∈ d.headers, x.a < h.a → x.a ≤ m.a) ∧
    ((∀ hd ∈ d.headers, ¬ hd.a < h.a) → d.head_for_hunk h = Except.error ()) ∧
    ((∃ c ∈ d.commits, c.a < h.a) →
      ∃ m, d.commit_for_hunk h = some m ∧ m ∈ d.commits ∧ m.a < h.a ∧
        ∀ x ∈ d.commits, x.a < h.a → x.a ≤ m.a) ∧
    ((∀ c ∈ d.commits, ¬ c.a < h.a) → d.commit_for_hunk h = none) := by
  intro d h
  have key : ∀ (l : List TextRange),
      ((∃ y ∈ l, y.a < h.a) →
        ∃ m, maxByA (l.filter (fun x => decide (x.a < h.a))) = some m ∧ m ∈ l ∧ m.a < h.a ∧
          ∀ x ∈ l, x.a < h.a → x.a ≤ m.a) ∧
      ((∀ y ∈ l, ¬ y.a < h.a) → maxByA (l.filter (fun x => decide (x.a < h.a))) = none) := by
    intro l
    constructor
    · rintro ⟨y, hy, hya⟩
      rcases hm : maxByA (l.filter (fun x => decide (x.a < h.a))) with _ | m
      · rw [maxByA_eq_none_iff] at hm
        rw [List.filter_eq_nil_iff] at hm
        exact absurd (by simpa using hya) (hm y hy)
      · obtain ⟨hmem, hall⟩ := maxByA_spec hm
        rw [List.mem_filter] at hmem
        exact ⟨m, rfl, hmem.1, by simpa using hmem.2, fun x hx hxa =>
          hall x (List.mem_filter.mpr ⟨hx, by simpa using hxa⟩)⟩
    · intro hnone
      rw [maxByA_eq_none_iff, List.filter_eq_nil_iff]
      intro y hy
      simpa using hnone y hy
  refine ⟨?_, ?_, ?_, ?_⟩
  · intro hex
    obtain ⟨m, hm, h1, h2, h3⟩ := (key d.headers).1 hex
    exact ⟨m, by simp [SplittedDiff.head_for_hunk, hm], h1, h2, h3⟩
  · intro hnone
    have := (key d.headers).2 hnone
    simp [SplittedDiff.head_for_hunk, this]
  · intro hex
    obtain ⟨m, hm, h1, h2, h3⟩ := (key d.commits).1 hex
    exact ⟨m, by simp [SplittedDiff.commit_for_hunk, hm], h1, h2, h3⟩
  · intro hnone
    have := (key d.commits).2 hnone
    simp [SplittedDiff.commit_for_hunk, this]

/-- Witness for C5 at a concrete structure: one commit, one header, one hunk. -/
theorem C5_witness :
    (∃ m, (SplittedDiff.mk [⟨("c").toList, 0, 2⟩] [⟨("d").toList, 2, 4⟩]
        [⟨("@").toList, 4, 8⟩]).head_for_hunk ⟨("@").toList, 4, 8⟩ = Except.ok m ∧
      m ∈ [⟨("d").toList, 2, 4⟩] ∧ m.a < (4 : Int) ∧
      ∀ x ∈ [(⟨("d").toList, 2, 4⟩ : TextRange)], x.a < (4 : Int) → x.a ≤ m.a) ∧
    (∃ m, (SplittedDiff.mk [⟨("c").toList, 0, 2⟩] [⟨("d").toList, 2, 4⟩]
        [⟨("@").toList, 4, 8⟩]).commit_for_hunk ⟨("@").toList, 4, 8⟩ = some m ∧
      m ∈ [⟨("c").toList, 0, 2⟩] ∧ m.a < (4 : Int) ∧
      ∀ x ∈ [(⟨("c").toList, 0, 2⟩ : TextRange)], x.a < (4 : Int) → x.a ≤ m.a) :=
  ⟨(C5_head_for_hunk_strict_commit_for_hunk_tolerant
      (SplittedDiff.mk [⟨("c").toList, 0, 2⟩] [⟨("d").toList, 2, 4⟩] [⟨("@").toList, 4, 8⟩])
      ⟨("@").toList, 4, 8⟩).1 ⟨⟨("d").toList, 2, 4⟩, by simp, by norm_num⟩,
   (C5_head_for_hunk_strict_commit_for_hunk_tolerant
      (SplittedDiff.mk [⟨("c").toList, 0, 2⟩] [⟨("d").toList, 2, 4⟩] [⟨("@").toList, 4, 8⟩])
      ⟨("@").toList, 4, 8⟩).2.2.1 ⟨⟨("c").toList, 0, 2⟩, by simp, by norm_num⟩⟩

/-! ## Claim C3 (corrected): `HunkHeader.parse` -/

/-- Counterexample to C3 as stated: on the header `"@@ -5 @@"`,
`safely_parse_metadata` yields at most two pairs, yet `parse` does not return a
flattened 4-tuple — it fails the `assert len(metadata) == 2` (only one pair is
present). -/
theorem C3_counterexample :
    (HunkHeader.safely_parse_metadata ⟨("@@ -5 @@").toList, 0, 8⟩).length ≤ 2 ∧
    HunkHeader.parse ⟨("@@ -5 @@").toList, 0, 8⟩ = Except.error HunkParseError.assertionFailed :=
  ⟨by decide, rfl⟩

/-- C3 (amended): when `safely_parse_metadata` yields more than two pairs, `parse`
raises `UnsupportedCombinedDiff` carrying the raw header text; when it yields
exactly two pairs, `parse` returns the flattened 4-tuple (an omitted length having
defaulted to 1); when it yields fewer than two pairs, `parse` fails its length
assertion instead of returning.  On `"@@ -685,8 +686,14 @@ func foo() {"` it
returns `(685, 8, 686, 14)` and on `"@@ -10 +10 @@"` it returns `(10, 1, 10, 1)`. -/
theorem C3_parse_amended :
    (∀ (r : TextRange), 2 < (HunkHeader.safely_parse_metadata r).length →
      HunkHeader.parse r = Except.error (HunkParseError.unsupportedCombinedDiff r.text)) ∧
    (∀ (r : TextRange) (p q : Nat × Nat), HunkHeader.safely_parse_metadata r = [p, q] →
      HunkHeader.parse r = Except.ok (p.1, p.2, q.1, q.2)) ∧
    (∀ (r : TextRange), (HunkHeader.safely_parse_metadata r).length < 2 →
      HunkHeader.parse r = Except.error HunkParseError.assertionFailed) ∧
    HunkHeader.parse ⟨("@@ -685,8 +686,14 @@ func foo() \x7b").toList, 0, 33⟩ =
      Except.ok (685, 8, 686, 14) ∧
    HunkHeader.parse ⟨("@@ -10 +10 @@").toList, 0, 13⟩ = Except.ok (10, 1, 10, 1) := by
  refine ⟨?_, ?_, ?_, rfl, rfl⟩
  · intro r h
    simp only [HunkHeader.parse]
    rw [if_pos h]
  · intro r p q h
    obtain ⟨p1, p2⟩ := p
    obtain ⟨q1, q2⟩ := q
    simp [HunkHeader.parse, h]
  · intro r h
    rcases hm : HunkHeader.safely_parse_metadata r with _ | ⟨x, _ | ⟨y, rest⟩⟩
    · simp [HunkHeader.parse, hm]
    · obtain ⟨x1, x2⟩ := x
      simp [HunkHeader.parse, hm]
    · rw [hm] at h
      simp at h
      omega

/-- Witness for C3 on the three-parent combined-diff header (strict branch) and a
two-pair header (flattening branch). -/
theorem C3_witness :
    (2 < (HunkHeader.safely_parse_metadata ⟨("@@@ -1,2 -3,4 +5,6 @@@").toList, 0, 22⟩).length ∧
      HunkHeader.parse ⟨("@@@ -1,2 -3,4 +5,6 @@@").toList, 0, 22⟩ =
        Except.error (HunkParseError.unsupportedCombinedDiff (("@@@ -1,2 -3,4 +5,6 @@@").toList))) ∧
    (HunkHeader.safely_parse_metadata ⟨("@@ -7,2 +9 @@").toList, 0, 13⟩ = [(7, 2), (9, 1)] ∧
      HunkHeader.parse ⟨("@@ -7,2 +9 @@").toList, 0, 13⟩ = Except.ok (7, 2, 9, 1)) :=
  ⟨⟨by decide, C3_parse_amended.1 ⟨("@@@ -1,2 -3,4 +5,6 @@@").toList, 0, 22⟩ (by decide)⟩,
   ⟨by decide, C3_parse_amended.2.1 ⟨("@@ -7,2 +9 @@").toList, 0, 13⟩ (7, 2) (9, 1) (by decide)⟩⟩

/-! ## Claim C4 (corrected): `HunkHeader.to_line_start` -/

/-- Counterexample to C4 as stated: `to_line_start` is not total — on a hunk header
with no parsable `(start, length)` pair at all, `metadata[-1]` raises `IndexError`
(modelled by `none`), so the tolerant accessor can raise. -/
theorem C4_counterexample :
    HunkHeader.to_line_start ⟨("@@ @@").toList, 0, 5⟩ = none ∧
    HunkHeader.safely_parse_metadata ⟨("@@ @@").toList, 0, 5⟩ = [] := ⟨rfl, by decide⟩

/-- C4 (amended): whenever `safely_parse_metadata` yields at least one pair,
`to_line_start` succeeds and returns the start of the last pair, regardless of the
number of parents; in particular, on the three-parent header
`"@@@ -1,2 -3,4 +5,6 @@@"` it returns `5` even though `parse` raises
`UnsupportedCombinedDiff` there.  (Only on a header with no pairs at all does the
`[-1]` subscript raise `IndexError`.) -/
theorem C4_to_line_start_amended :
    (∀ (r : TextRange) (ps : List (Nat × Nat)) (p : Nat × Nat),
      HunkHeader.safely_parse_metadata r = ps ++ [p] →
        HunkHeader.to_line_start r = some p.1) ∧
    HunkHeader.to_line_start ⟨("@@@ -1,2 -3,4 +5,6 @@@").toList, 0, 22⟩ = some 5 ∧
    HunkHeader.parse ⟨("@@@ -1,2 -3,4 +5,6 @@@").toList, 0, 22⟩ =
      Except.error (HunkParseError.unsupportedCombinedDiff (("@@@ -1,2 -3,4 +5,6 @@@").toList)) := by
  refine ⟨?_, rfl, rfl⟩
  intro r ps p h
  simp [HunkHeader.to_line_start, h, List.getLast?_concat]

/-- Witness for C4 applying the amended theorem at a two-pair header. -/
theorem C4_witness :
    HunkHeader.safely_parse_metadata ⟨("@@ -1 +2 @@").toList, 0, 11⟩ = [(1, 1)] ++ [(2, 1)] ∧
    HunkHeader.to_line_start ⟨("@@ -1 +2 @@").toList, 0, 11⟩ = some 2 :=
  ⟨by decide,
   C4_to_line_start_amended.1 ⟨("@@ -1 +2 @@").toList, 0, 11⟩ [(1, 1)] (2, 1) (by decide)⟩

/-! ## Claim C9 (corrected): `CommitHeader.commit_hash` -/

theorem pySplit_no_sep {sep : Char} : ∀ {w : List Char}, sep ∉ w → pySplit sep w = [w] := by
  intro w
  induction w with
  | nil => intro _; rfl
  | cons c cs ih =>
    intro h
    have hc : (c == sep) = false := by
      simp only [List.mem_cons] at h
      simp [beq_eq_false_iff_ne]
      exact fun he => h (Or.inl he.symm)
    have hcs : sep ∉ cs := fun hm => h (List.mem_cons.mpr (Or.inr hm))
    simp [pySplit, hc, ih hcs]

theorem pySplit_break {sep : Char} : ∀ {w : List Char} (rest : List Char), sep ∉ w →
    pySplit sep (w ++ sep :: rest) = w :: pySplit sep rest := by
  intro w
  induction w with
  | nil => intro rest _; simp [pySplit]
  | cons c cs ih =>
    intro rest h
    have hc : (c == sep) = false := by
      simp only [List.mem_cons] at h
      simp [beq_eq_false_iff_ne]
      exact fun he => h (Or.inl he.symm)
    have hcs : sep ∉ cs := fun hm => h (List.mem_cons.mpr (Or.inr hm))
    simp only [List.cons_append, pySplit, hc, Bool.false_eq_true, if_false, List.append_eq]
    rw [ih rest hcs]

theorem takeWhile_first_line {first rest : List Char} (h : '\n' ∉ first) :
    (first ++ '\n' :: rest).takeWhile (fun c => c ≠ '\n') = first := by
  rw [takeWhile_append_all _ _ (fun x hx => by
    simp only [decide_eq_true_eq]
    exact fun he => h (he ▸ hx))]
  simp [List.takeWhile_cons]

/-- Counterexample to C9 as stated: on a commit header whose text holds no newline
at all (e.g. a diff buffer ending without a trailing newline inside the commit
header), `self.text.index('\n')` raises `ValueError`; `commit_hash` neither returns
the token after the first space nor `None`. -/
theorem C9_counterexample :
    CommitHeader.commit_hash ⟨("commit abc123").toList, 0, 13⟩ = Except.error () := rfl

/-- C9 (amended): for every `CommitHeader` whose text contains a newline,
`commit_hash` inspects only the first line: if it starts with `"commit "` the token
between the first and second space is returned, otherwise `None`; on newline-free
text the method instead raises `ValueError` from `str.index`.  In particular,
`CommitHeader("commit abc123\nAuthor: ...\n")` yields `"abc123"`. -/
theorem C9_commit_hash_amended :
    (∀ (r : TextRange) (first rest : List Char), r.text = first ++ '\n' :: rest →
      '\n' ∉ first →
      ((∀ tok rest3, first = ("commit ").toList ++ tok ++ rest3 → ' ' ∉ tok →
          (rest3 = [] ∨ ∃ r4, rest3 = ' ' :: r4) →
          CommitHeader.commit_hash r = Except.ok (some tok)) ∧
        (List.isPrefixOf (("commit ").toList) first = false →
          CommitHeader.commit_hash r = Except.ok none))) ∧
    (∀ (r : TextRange), '\n' ∉ r.text → CommitHeader.commit_hash r = Except.error ()) ∧
    CommitHeader.commit_hash ⟨("commit abc123\nAuthor: ...\n").toList, 0, 26⟩ =
      Except.ok (some (("abc123").toList)) := by
  refine ⟨?_, ?_, rfl⟩
  · intro r first rest hr hnl
    have hmem : '\n' ∈ r.text := by rw [hr]; simp
    have hfl : r.text.takeWhile (fun c => c ≠ '\n') = first := by
      rw [hr]; exact takeWhile_first_line hnl
    constructor
    · intro tok rest3 hfirst htok hrest3
      have hpre : List.isPrefixOf (("commit ").toList) first = true := by
        rw [hfirst, List.append_assoc]
        exact isPrefixOf_append_self _ _
      have hsplit : (pySplit ' ' first).getD 1 [] = tok := by
        have hfirst' : first = ("commit").toList ++ ' ' :: (tok ++ rest3) := by
          rw [hfirst]; simp
        have hnos : ' ' ∉ ("commit").toList := by decide
        rw [hfirst', pySplit_break _ hnos]
        rcases hrest3 with h3 | ⟨r4, h3⟩
        · rw [h3, List.append_nil, pySplit_no_sep htok]
          rfl
        · rw [h3, pySplit_break _ htok]
          rfl
      simp only [CommitHeader.commit_hash, hmem, if_pos, hfl, hpre, if_true, hsplit]
    · intro hnpre
      simp only [CommitHeader.commit_hash, hmem, if_pos, hfl, hnpre]
      simp
  · intro r hn
    simp [CommitHeader.commit_hash, hn]

/-- Witness for C9: both amended branches at concrete headers, plus the raising
branch. -/
theorem C9_witness :
    CommitHeader.commit_hash ⟨("commit abc123\nAuthor: x").toList, 0, 23⟩ =
      Except.ok (some (("abc123").toList)) ∧
    CommitHeader.commit_hash ⟨("Merge: 1 2\nrest").toList, 0, 15⟩ = Except.ok none ∧
    CommitHeader.commit_hash ⟨("commit noeol").toList, 0, 12⟩ = Except.error () :=
  ⟨(C9_commit_hash_amended.1 ⟨("commit abc123\nAuthor: x").toList, 0, 23⟩
      (("commit abc123").toList) (("Author: x").toList) (by decide) (by decide)).1
      (("abc123").toList) [] (by decide) (by decide) (Or.inl rfl),
   (C9_commit_hash_amended.1 ⟨("Merge: 1 2\nrest").toList, 0, 15⟩
      (("Merge: 1 2").toList) (("rest").toList) (by decide) (by decide)).2 (by decide),
   C9_commit_hash_amended.2.1 ⟨("commit noeol").toList, 0, 12⟩ (by decide)⟩

/-! ## Claim C2: `TextRange.lines` round-trip -/

theorem splitlinesAux_flatten : ∀ (acc l : List Char),
    (splitlinesAux acc l).flatten = acc.reverse ++ l := by
  intro acc l
  induction acc, l using splitlinesAux.induct with
  | case1 acc h => simp_all [splitlinesAux, List.isEmpty_iff]
  | case2 acc h => simp_all [splitlinesAux, List.isEmpty_iff]
  | case3 acc rest ih => simp [splitlinesAux, ih]
  | case4 acc c rest hne h ih => simp_all [splitlinesAux]
  | case5 acc c rest hne h ih => simp_all [splitlinesAux]

theorem splitlinesKeepends_flatten (text : List Char) :
    (splitlinesKeepends text).flatten = text := by
  simpa using splitlinesAux_flatten [] text

theorem accumulateFrom_shape (init : Int) (l : List Int) :
    ∃ t, accumulateFrom init l = init :: t := by
  cases l <;> exact ⟨_, rfl⟩

theorem linesFrom_cons (a : Int) (l : List Char) (ls : List (List Char)) :
    linesFrom a (l :: ls) =
      ⟨l, a, a + l.length⟩ :: linesFrom (a + (l.length : Int)) ls := by
  obtain ⟨t, ht⟩ :=
    accumulateFrom_shape (a + (l.length : Int)) (ls.map (fun l => (l.length : Int)))
  simp only [linesFrom, List.map_cons, accumulateFrom, ht, pairwiseL, List.zip_cons_cons]

theorem linesFrom_nil (a : Int) : linesFrom a [] = [] := rfl

theorem linesFrom_flatten : ∀ (ls : List (List Char)) (a : Int),
    ((linesFrom a ls).map TextRange.text).flatten = ls.flatten := by
  intro ls
  induction ls with
  | nil => intro a; rfl
  | cons l ls ih => intro a; simp [linesFrom_cons, ih]

theorem linesFrom_b_eq (ls : List (List Char)) : ∀ (a : Int),
    ∀ x ∈ linesFrom a ls, x.b = x.a + x.text.length := by
  induction ls with
  | nil => intro a x hx; simp [linesFrom_nil] at hx
  | cons l ls ih =>
    intro a x hx
    rw [linesFrom_cons] at hx
    rcases List.mem_cons.mp hx with h | h
    · subst h; rfl
    · exact ih (a + l.length) x h

theorem linesFrom_chain (ls : List (List Char)) : ∀ (a : Int),
    List.Chain' (fun x y => x.b = y.a) (linesFrom a ls) := by
  induction ls with
  | nil => intro a; simp [linesFrom_nil]
  | cons l ls ih =>
    intro a
    rw [linesFrom_cons, List.chain'_cons']
    refine ⟨?_, ih (a + l.length)⟩
    intro y hy
    cases ls with
    | nil => simp [linesFrom_nil] at hy
    | cons l2 ls2 =>
      rw [linesFrom_cons] at hy
      simp only [List.head?_cons, Option.mem_def, Option.some_inj] at hy
      rw [← hy]

theorem lines_eq_linesFrom (r : TextRange) :
    r.lines = linesFrom r.a (splitlinesKeepends r.text) := rfl

/-- C2: for every `TextRange`, concatenating the text of `lines()` in order
reproduces `text` exactly (each line keeping its line-ending characters);
consecutive lines are contiguous (`line[i].b = line[i+1].a`), the first line starts
at `r.a`, and every line satisfies `b = a + len(text)` — i.e. the offsets are the
running prefix-sum of line lengths starting at `r.a`. -/
theorem C2_lines_roundtrip : ∀ (r : TextRange),
    ((r.lines.map TextRange.text).flatten = r.text) ∧
    List.Chain' (fun x y => x.b = y.a) r.lines ∧
    (∀ x l', r.lines = x :: l' → x.a = r.a) ∧
    (∀ x ∈ r.lines, x.b = x.a + x.text.length) := by
  intro r
  rw [lines_eq_linesFrom]
  refine ⟨?_, linesFrom_chain _ _, ?_, linesFrom_b_eq _ _⟩
  · rw [linesFrom_flatten, splitlinesKeepends_flatten]
  · intro x l' hx
    cases hsl : splitlinesKeepends r.text with
    | nil => rw [hsl, linesFrom_nil] at hx; exact absurd hx (by simp)
    | cons l ls =>
      rw [hsl, linesFrom_cons] at hx
      have := (List.cons_eq_cons.mp hx).1
      rw [← this]

/-- Witness for C2 at a concrete two-line range. -/
theorem C2_witness :
    (((⟨("ab\ncd").toList, 5, 10⟩ : TextRange).lines.map TextRange.text).flatten =
      ("ab\ncd").toList) ∧
    (⟨("ab\ncd").toList, 5, 10⟩ : TextRange).lines =
      [⟨("ab\n").toList, 5, 8⟩, ⟨("cd").toList, 8, 10⟩] ∧
    (⟨("ab\n").toList, 5, 8⟩ : TextRange).a = 5 :=
  ⟨(C2_lines_roundtrip ⟨("ab\ncd").toList, 5, 10⟩).1, by decide,
   (C2_lines_roundtrip ⟨("ab\ncd").toList, 5, 10⟩).2.2.1 ⟨("ab\n").toList, 5, 8⟩
     [⟨("cd").toList, 8, 10⟩] (by decide)⟩

/-! ## Claim C8 (corrected): `FileHeader.from_filename` -/

theorem getLast?_mem {α} : ∀ {l : List α} {c : α}, l.getLast? = some c → c ∈ l := by
  intro l
  induction l with
  | nil => intro c h; simp at h
  | cons x xs ih =>
    intro c h
    cases xs with
    | nil => simp_all
    | cons y ys =>
      rw [List.getLast?_cons_cons] at h
      exact List.mem_cons.mpr (Or.inr (ih h))

theorem lastLineForDollar_eq {pre X : List Char}
    (hpre : pre = [] ∨ pre.getLast? = some '\n') (hX : '\n' ∉ X) :
    (((pre ++ X).reverse.takeWhile (fun c => c ≠ '\n')).reverse) = X := by
  rw [List.reverse_append]
  rw [takeWhile_append_all _ _ (fun x hx => by
    simp only [decide_eq_true_eq]
    exact fun he => hX (he ▸ (List.mem_reverse.mp hx)))]
  have hpr : pre.reverse.takeWhile (fun c => decide (c ≠ '\n')) = [] := by
    rcases hpre with h | h
    · rw [h]; rfl
    · have : pre.reverse.head? = some '\n' := by rw [List.head?_reverse, h]
      cases hr : pre.reverse with
      | nil => rfl
      | cons y ys =>
        rw [hr] at this
        simp only [List.head?_cons, Option.some_inj] at this
        subst this
        simp [List.takeWhile_cons]
  rw [hpr, List.append_nil, List.reverse_reverse]

theorem getLast?_append_right {α} {l₁ l₂ : List α} (h : l₂ ≠ []) :
    (l₁ ++ l₂).getLast? = l₂.getLast? := by
  rw [List.getLast?_append]
  cases hl : l₂.getLast? with
  | none =>
    exfalso
    cases l₂ with
    | nil => exact h rfl
    | cons x xs => exact absurd hl (by simp [List.getLast?_eq_getLast])
  | some c => rfl

theorem findPlusB_at {z : List Char} (hz : z ≠ []) :
    findPlusB (("+++ b/").toList ++ z) = some z := by
  have hlen : 6 < ('+' :: ('+' :: ('+' :: (' ' :: ('b' :: ('/' :: z)))))).length := by
    have : 0 < z.length := List.length_pos.mpr hz
    simp only [List.length_cons]
    omega
  have hpre : List.isPrefixOf (("+++ b/").toList)
      ('+' :: ('+' :: ('+' :: (' ' :: ('b' :: ('/' :: z)))))) = true :=
    isPrefixOf_append_self (("+++ b/").toList) z
  show findPlusB ('+' :: ('+' :: ('+' :: (' ' :: ('b' :: ('/' :: z)))))) = some z
  rw [findPlusB, hpre, decide_eq_true hlen]
  rfl

theorem findPlusB_occurrence : ∀ {l L : List Char}, findPlusB l = some L →
    ∃ u v, l = u ++ ("+++ b/").toList ++ v := by
  intro l
  induction l with
  | nil => intro L h; simp [findPlusB] at h
  | cons c rest ih =>
    intro L h
    rw [findPlusB] at h
    split at h
    · rename_i hcond
      obtain ⟨v, hv⟩ := isPrefixOf_exists (Bool.and_elim_left hcond)
      exact ⟨[], v, by simpa using hv⟩
    · obtain ⟨u, v, huv⟩ := ih h
      exact ⟨c :: u, v, by simp [huv]⟩

theorem lastLineForDollar_infix (text : List Char) :
    ∃ u v, text = u ++ lastLineForDollar text ++ v := by
  unfold lastLineForDollar
  split
  · rename_i hlast
    rw [beq_iff_eq] at hlast
    have hne : text ≠ [] := by intro h; rw [h] at hlast; simp at hlast
    have hdecomp : text.dropLast ++ [text.getLast hne] = text := List.dropLast_append_getLast hne
    have hrev := List.takeWhile_append_dropWhile
      (p := fun c => decide (c ≠ '\n')) (l := text.dropLast.reverse)
    have hsplit : text.dropLast =
        (text.dropLast.reverse.dropWhile (fun c => decide (c ≠ '\n'))).reverse ++
          (text.dropLast.reverse.takeWhile (fun c => decide (c ≠ '\n'))).reverse := by
      conv_lhs => rw [← List.reverse_reverse text.dropLast, ← hrev]
      rw [List.reverse_append]
    refine ⟨(text.dropLast.reverse.dropWhile (fun c => decide (c ≠ '\n'))).reverse,
      [text.getLast hne], ?_⟩
    conv_lhs => rw [← hdecomp]
    rw [← hsplit]
  · have hrev := List.takeWhile_append_dropWhile
      (p := fun c => decide (c ≠ '\n')) (l := text.reverse)
    refine ⟨(text.reverse.dropWhile (fun c => decide (c ≠ '\n'))).reverse, [], ?_⟩
    rw [List.append_nil]
    conv_lhs => rw [← List.reverse_reverse text, ← hrev]
    rw [List.reverse_append]

/-- Counterexample to C8 as stated: a header block that contains the full line
`"+++ b/foo"` followed by further lines.  The pattern
`\+\+\+ b/(.+?)\t?$` is compiled without `re.MULTILINE`, so `$` only anchors at the
end of the text (or just before one final newline); the mid-block `+++` line is not
matched and `from_filename` returns `None` instead of `"foo"`. -/
theorem C8_counterexample :
    FileHeader.from_filename ⟨("+++ b/foo\nmore\n").toList, 0, 15⟩ = none ∧
    ("+++ b/foo\nmore\n").toList = ("+++ b/foo\n").toList ++ ("more\n").toList :=
  ⟨by decide, by decide⟩

/-- C8 (amended): `from_filename` matches `+++ b/<path>` (with an optional single
trailing tab, stripped from the result) only on the final line of the block —
`HEADER_TO_FILE_RE` has no `re.MULTILINE` flag, so its `$` anchors at end of text,
tolerating one trailing newline.  It returns `None` whenever `"+++ b/"` does not
occur in the text (e.g. binary file headers); a `+++ b/` line that is not the final
line is not matched.  A `FileHeader` whose final line is `"+++ b/src/main.rs\t"`
yields `"src/main.rs"`. -/
theorem C8_from_filename_amended :
    (∀ (r : TextRange) (pre p t : List Char),
      (t = [] ∨ t = ['\t']) →
      (pre = [] ∨ pre.getLast? = some '\n') →
      p ≠ [] → '\n' ∉ p →
      (t = [] → p.getLast? ≠ some '\t') →
      (r.text = pre ++ ("+++ b/").toList ++ p ++ t ∨
       r.text = pre ++ ("+++ b/").toList ++ p ++ t ++ ['\n']) →
      FileHeader.from_filename r = some p) ∧
    (∀ (r : TextRange), ¬ ("+++ b/").toList <:+: r.text →
      FileHeader.from_filename r = none) ∧
    FileHeader.from_filename ⟨("+++ b/src/main.rs\t").toList, 0, 18⟩ =
      some (("src/main.rs").toList) := by
  refine ⟨?_, ?_, by decide⟩
  · intro r pre p t ht hpre hp hnl hlastp htext
    set X := ("+++ b/").toList ++ p ++ t with hXdef
    have hXnl : '\n' ∉ X := by
      intro hmem
      rw [hXdef, List.append_assoc] at hmem
      rcases List.mem_append.mp hmem with h | h
      · revert h; decide
      · rcases List.mem_append.mp h with h | h
        · exact hnl h
        · rcases ht with h' | h' <;> rw [h'] at h <;> simp_all
    have hXne : X ≠ [] := by
      rw [hXdef]
      simp
    have htext' : r.text = pre ++ X ∨ r.text = (pre ++ X) ++ ['\n'] := by
      rcases htext with h | h
      · exact Or.inl (by rw [h, hXdef]; simp [List.append_assoc])
      · exact Or.inr (by rw [h, hXdef]; simp [List.append_assoc])
    have hs : (if r.text.getLast? == some '\n' then r.text.dropLast else r.text) = pre ++ X := by
      rcases htext' with h | h
      · have hlX : r.text.getLast? = X.getLast? := by
          rw [h, getLast?_append_right hXne]
        have hXl : X.getLast? ≠ some '\n' := by
          intro hc
          exact hXnl (getLast?_mem hc)
        rw [show (r.text.getLast? == some '\n') = false by
          rw [beq_eq_false_iff_ne, hlX]
          exact hXl]
        simp only [Bool.false_eq_true, if_false]
        exact h
      · rw [h, List.getLast?_concat]
        simp only [beq_self_eq_true, if_true]
        rw [List.dropLast_concat]
    have hll : lastLineForDollar r.text = X := by
      unfold lastLineForDollar
      rw [hs]
      exact lastLineForDollar_eq hpre hXnl
    have hfind : findPlusB (lastLineForDollar r.text) = some (p ++ t) := by
      rw [hll, hXdef, List.append_assoc]
      exact findPlusB_at (by rcases ht with h | h <;> simp [h, hp])
    unfold FileHeader.from_filename
    rw [hfind]
    show some (if 2 ≤ (p ++ t).length ∧ (p ++ t).getLast? = some '\t'
        then (p ++ t).dropLast else (p ++ t)) = some p
    rcases ht with h | h
    · rw [h, List.append_nil]
      rw [if_neg (fun hc => hlastp h hc.2)]
    · rw [h]
      rw [if_pos ⟨by
          have : 0 < p.length := List.length_pos.mpr hp
          simp only [List.length_append, List.length_cons, List.length_nil]
          omega,
        List.getLast?_concat p⟩]
      rw [List.dropLast_concat]
  · intro r hninf
    unfold FileHeader.from_filename
    cases hf : findPlusB (lastLineForDollar r.text) with
    | none => rfl
    | some L =>
      exfalso
      obtain ⟨u, v, huv⟩ := findPlusB_occurrence hf
      obtain ⟨u', v', huv'⟩ := lastLineForDollar_infix r.text
      refine hninf ⟨u' ++ u, v ++ v', ?_⟩
      rw [huv'] at *
      rw [huv]
      simp [List.append_assoc]

/-- Witness for C8: the final-line match (with separate preceding lines) and the
no-occurrence case. -/
theorem C8_witness :
    FileHeader.from_filename ⟨("--- a/x\n+++ b/x").toList, 0, 15⟩ = some (("x").toList) ∧
    FileHeader.from_filename ⟨("Binary files differ\n").toList, 0, 20⟩ = none :=
  ⟨C8_from_filename_amended.1 ⟨("--- a/x\n+++ b/x").toList, 0, 15⟩ (("--- a/x\n").toList)
      (("x").toList) [] (Or.inl rfl) (Or.inr (by decide)) (by decide) (by decide)
      (fun _ => by decide) (Or.inl (by decide)),
   C8_from_filename_amended.2.1 ⟨("Binary files differ\n").toList, 0, 20⟩ (by decide)⟩

/-! ## Scanner structure: properties of `sections` and `taggedEntities` -/

theorem sections_shape {text : List Char} {p : Nat} {x : Tag × Nat}
    (hx : (if isLineStart text p then (markerOf (text.drop p)).map (fun t => (t, p)) else none)
      = some x) : x.2 = p ∧ x.1 ≠ Tag.END := by
  split at hx
  · cases hmo : markerOf (text.drop p) with
    | none => rw [hmo] at hx; simp at hx
    | some t =>
      rw [hmo] at hx
      simp only [Option.map_some', Option.some_inj] at hx
      subst hx
      refine ⟨rfl, ?_⟩
      unfold markerOf at hmo
      split_ifs at hmo <;> simp_all <;> intro h <;> rw [← hmo] at h <;> exact Tag.noConfusion h
  · simp at hx

theorem sections_sorted (text : List Char) :
    (sections text).Pairwise (fun x y => x.2 < y.2) := by
  unfold sections
  refine (List.pairwise_lt_range text.length).filterMap _ ?_
  intro a a' hlt b hb b' hb'
  have h1 := (sections_shape (Option.mem_def.mp hb)).1
  have h2 := (sections_shape (Option.mem_def.mp hb')).1
  rw [h1, h2]
  exact hlt

theorem sections_mem {text : List Char} {x : Tag × Nat} (hx : x ∈ sections text) :
    x.2 < text.length ∧ x.1 ≠ Tag.END := by
  unfold sections at hx
  obtain ⟨p, hp, hpx⟩ := List.mem_filterMap.mp hx
  obtain ⟨h1, h2⟩ := sections_shape hpx
  exact ⟨by rw [h1]; exact List.mem_range.mp hp, h2⟩

theorem taggedEntities_eq_entsOf (text : List Char) (offset : Int) :
    taggedEntities text offset = entsOf text offset (sections text) := by
  unfold taggedEntities
  generalize sections text = secs
  induction secs with
  | nil => rfl
  | cons x rest ih =>
    cases rest with
    | nil => cases x; rfl
    | cons y rest2 =>
      obtain ⟨t, s⟩ := x
      obtain ⟨t', s'⟩ := y
      rw [entsOf, ← ih]
      simp only [List.cons_append, pairwiseL, List.map_cons, List.append_eq]

theorem entsOf_map_fst (text : List Char) (offset : Int) : ∀ (secs : List (Tag × Nat)),
    (entsOf text offset secs).map Prod.fst = secs.map Prod.fst := by
  intro secs
  induction secs with
  | nil => rfl
  | cons x rest ih =>
    cases rest with
    | nil => cases x; rfl
    | cons y rest2 =>
      obtain ⟨t, s⟩ := x
      obtain ⟨t', s'⟩ := y
      simp only [entsOf, List.map_cons] at ih ⊢
      rw [ih]

theorem entsOf_head_a (text : List Char) (offset : Int) : ∀ (secs : List (Tag × Nat)),
    (entsOf text offset secs).head?.map (fun e => e.2.a) =
      secs.head?.map (fun x => (x.2 : Int) + offset) := by
  intro secs
  cases secs with
  | nil => rfl
  | cons x rest =>
    cases rest with
    | nil => cases x; rfl
    | cons y rest2 => cases x; cases y; rfl

theorem entsOf_chain (text : List Char) (offset : Int) : ∀ (secs : List (Tag × Nat)),
    List.Chain' (fun x y => x.2.b = y.2.a) (entsOf text offset secs) := by
  intro secs
  induction secs with
  | nil => simp [entsOf]
  | cons x rest ih =>
    cases rest with
    | nil => cases x; simp [entsOf]
    | cons y rest2 =>
      obtain ⟨t, s⟩ := x
      obtain ⟨t', s'⟩ := y
      rw [entsOf, List.chain'_cons']
      refine ⟨?_, ih⟩
      intro b hb
      have hh := entsOf_head_a text offset ((t', s') :: rest2)
      rw [Option.mem_def] at hb
      rw [hb] at hh
      simp only [Option.map_some', List.head?_cons, Option.some_inj] at hh
      exact hh.symm

theorem entsOf_a_lt_b (text : List Char) (offset : Int) : ∀ (secs : List (Tag × Nat)),
    secs.Pairwise (fun x y => x.2 < y.2) → (∀ x ∈ secs, x.2 < text.length) →
    ∀ e ∈ entsOf text offset secs, e.2.a < e.2.b := by
  intro secs
  induction secs with
  | nil => intro _ _ e he; simp [entsOf] at he
  | cons x rest ih =>
    intro hsort hbound e he
    cases rest with
    | nil =>
      cases x with
      | mk t s =>
        simp only [entsOf, List.mem_singleton] at he
        subst he
        have hs : s < text.length := hbound (t, s) (by simp)
        simp only
        have : (s : Int) < ((text.length + 1 : Nat) : Int) := by
          push_cast
          omega
        omega
    | cons y rest2 =>
      cases x with
      | mk t s =>
        rw [entsOf] at he
        rcases List.mem_cons.mp he with h | h
        · subst h
          have hss : s < y.2 := (List.pairwise_cons.mp hsort).1 y (by simp)
          simp only
          have : (s : Int) < (y.2 : Int) := by exact_mod_cast hss
          omega
        · exact ih (List.pairwise_cons.mp hsort).2
            (fun z hz => hbound z (List.mem_cons.mpr (Or.inr hz))) e h

theorem chain_eq_to_strict {l : List (Tag × TextRange)}
    (hc : List.Chain' (fun x y => x.2.b = y.2.a) l)
    (ha : ∀ e ∈ l, e.2.a < e.2.b) :
    List.Chain' (fun x y => x.2.b ≤ y.2.a ∧ x.2.a < y.2.a) l := by
  induction l with
  | nil => simp
  | cons x xs ih =>
    rw [List.chain'_cons'] at hc ⊢
    refine ⟨?_, ih hc.2 (fun e he => ha e (List.mem_cons.mpr (Or.inr he)))⟩
    intro b hb
    have heq := hc.1 b hb
    have hx := ha x (by simp)
    exact ⟨le_of_eq heq, lt_of_lt_of_le hx (le_of_eq heq)⟩

theorem entsOf_pairwise (text : List Char) (offset : Int) (secs : List (Tag × Nat))
    (h1 : secs.Pairwise (fun x y => x.2 < y.2)) (h2 : ∀ x ∈ secs, x.2 < text.length) :
    (entsOf text offset secs).Pairwise (fun x y => x.2.b ≤ y.2.a ∧ x.2.a < y.2.a) := by
  haveI : IsTrans (Tag × TextRange) (fun x y => x.2.b ≤ y.2.a ∧ x.2.a < y.2.a) :=
    ⟨fun a b c hab hbc => ⟨hab.1.trans (le_of_lt hbc.2), hab.2.trans hbc.2⟩⟩
  rw [← List.chain'_iff_pairwise]
  exact chain_eq_to_strict (entsOf_chain text offset secs) (entsOf_a_lt_b text offset secs h1 h2)

theorem entsOf_getLast (text : List Char) (offset : Int) : ∀ (secs : List (Tag × Nat)),
    secs ≠ [] → ∃ s, secs.getLast? = some s ∧
      (entsOf text offset secs).getLast? =
        some (s.1, ⟨pySlice text s.2 (text.length + 1), (s.2 : Int) + offset,
          ((text.length + 1 : Nat) : Int) + offset⟩) := by
  intro secs
  induction secs with
  | nil => intro h; exact absurd rfl h
  | cons x rest ih =>
    intro _
    cases rest with
    | nil => cases x; exact ⟨_, rfl, rfl⟩
    | cons y rest2 =>
      obtain ⟨s, hs1, hs2⟩ := ih (by simp)
      refine ⟨s, by rw [List.getLast?_cons_cons]; exact hs1, ?_⟩
      obtain ⟨t0, s0⟩ := x
      obtain ⟨t', s'⟩ := y
      have hshape : ∃ z zs, entsOf text offset ((t', s') :: rest2) = z :: zs := by
        cases rest2 <;> exact ⟨_, _, rfl⟩
      obtain ⟨z, zs, hz⟩ := hshape
      rw [entsOf, hz, List.getLast?_cons_cons, ← hz]
      exact hs2

theorem entsOf_fst_ne_END (text : List Char) (offset : Int) {e : Tag × TextRange}
    (he : e ∈ entsOf text offset (sections text)) : e.1 ≠ Tag.END := by
  have h1 : e.1 ∈ (entsOf text offset (sections text)).map Prod.fst :=
    List.mem_map_of_mem Prod.fst he
  rw [entsOf_map_fst] at h1
  obtain ⟨s, hs, hse⟩ := List.mem_map.mp h1
  rw [← hse]
  exact (sections_mem hs).2

/-! ## Stable sorting by key -/

theorem insertByKey_perm {α : Type} (key : α → Int) (x : α) : ∀ (l : List α),
    List.Perm (insertByKey key x l) (x :: l) := by
  intro l
  induction l with
  | nil => exact List.Perm.refl _
  | cons y ys ih =>
    rw [insertByKey]
    split
    · exact List.Perm.refl _
    · exact (ih.cons y).trans (List.Perm.swap x y ys)

theorem sortByKey_perm {α : Type} (key : α → Int) : ∀ (l : List α),
    List.Perm (sortByKey key l) l := by
  intro l
  induction l with
  | nil => exact List.Perm.refl _
  | cons x xs ih => exact (insertByKey_perm key x (sortByKey key xs)).trans (ih.cons x)

theorem mem_insertByKey {α : Type} {key : α → Int} {x z : α} {l : List α}
    (h : z ∈ insertByKey key x l) : z = x ∨ z ∈ l := by
  have := (insertByKey_perm key x l).subset h
  simpa using this

theorem insertByKey_sorted {α : Type} (key : α → Int) (x : α) : ∀ {l : List α},
    l.Pairwise (fun a b => key a ≤ key b) →
    (insertByKey key x l).Pairwise (fun a b => key a ≤ key b) := by
  intro l
  induction l with
  | nil => intro _; simp [insertByKey]
  | cons y ys ih =>
    intro h
    rw [insertByKey]
    obtain ⟨hy, hys⟩ := List.pairwise_cons.mp h
    split
    · rename_i hxy
      rw [List.pairwise_cons]
      refine ⟨?_, h⟩
      intro z hz
      rcases List.mem_cons.mp hz with h' | h'
      · subst h'; exact hxy
      · exact hxy.trans (hy z h')
    · rename_i hxy
      rw [List.pairwise_cons]
      refine ⟨?_, ih hys⟩
      intro z hz
      rcases mem_insertByKey hz with h' | h'
      · subst h'; exact le_of_not_le hxy
      · exact hy z h'

theorem sortByKey_sorted {α : Type} (key : α → Int) : ∀ (l : List α),
    (sortByKey key l).Pairwise (fun a b => key a ≤ key b) := by
  intro l
  induction l with
  | nil => simp [sortByKey]
  | cons x xs ih => exact insertByKey_sorted key x ih

theorem sorted_perm_eq {α : Type} (key : α → Int) : ∀ {m l : List α},
    List.Perm l m → l.Pairwise (fun a b => key a ≤ key b) →
    m.Pairwise (fun a b => key a < key b) → l = m := by
  intro m
  induction m with
  | nil => intro l hp _ _; exact hp.eq_nil
  | cons y m' ih =>
    intro l hp hl hm
    cases l with
    | nil => exact absurd hp.symm.eq_nil (by simp)
    | cons x l' =>
      by_cases hxy : x = y
      · subst hxy
        rw [ih hp.cons_inv (List.pairwise_cons.mp hl).2 (List.pairwise_cons.mp hm).2]
      · exfalso
        have hx : x ∈ m' := by
          have := hp.subset (List.mem_cons_self x l')
          rcases List.mem_cons.mp this with h | h
          · exact absurd h hxy
          · exact h
        have hy : y ∈ l' := by
          have := hp.symm.subset (List.mem_cons_self y m')
          rcases List.mem_cons.mp this with h | h
          · exact absurd h.symm hxy
          · exact h
        have h1 : key y < key x := (List.pairwise_cons.mp hm).1 x hx
        have h2 : key x ≤ key y := (List.pairwise_cons.mp hl).1 y hy
        omega

theorem filter_or_perm {α : Type} (p q : α → Bool) (h : ∀ x, ¬(p x = true ∧ q x = true)) :
    ∀ (l : List α), List.Perm (l.filter p ++ l.filter q) (l.filter (fun x => p x || q x)) := by
  intro l
  induction l with
  | nil => exact List.Perm.refl _
  | cons x xs ih =>
    by_cases hpx : p x = true
    · have hqx : q x = false := by
        cases hq : q x
        · rfl
        · exact absurd ⟨hpx, hq⟩ (h x)
      simp only [List.filter_cons, hpx, hqx, Bool.true_or, if_true, Bool.false_eq_true, if_false]
      exact ih.cons x
    · have hpx' : p x = false := Bool.eq_false_iff.mpr hpx
      cases hqx : q x
      · simp only [List.filter_cons, hpx', hqx, Bool.false_or, Bool.false_eq_true, if_false]
        exact ih
      · simp only [List.filter_cons, hpx', hqx, Bool.false_or, Bool.false_eq_true, if_false,
          if_true]
        exact (List.perm_middle).trans (ih.cons x)

/-! ## The merged entity sequence of `from_string` -/

theorem from_string_merged_eq (text : List Char) (offset : Int) :
    (SplittedDiff.from_string text offset).merged =
      (entsOf text offset (sections text)).map (fun e => e.2) := by
  have hents := taggedEntities_eq_entsOf text offset
  have hpw := entsOf_pairwise text offset (sections text) (sections_sorted text)
    (fun x hx => (sections_mem hx).1)
  have hperm : List.Perm
      ((SplittedDiff.from_string text offset).commits ++
        (SplittedDiff.from_string text offset).headers ++
        (SplittedDiff.from_string text offset).hunks)
      ((entsOf text offset (sections text)).map (fun e => e.2)) := by
    show List.Perm
      (((taggedEntities text offset).filter (fun e => decide (e.1 = Tag.commit))).map (fun e => e.2) ++
        ((taggedEntities text offset).filter (fun e => decide (e.1 = Tag.diff))).map (fun e => e.2) ++
        ((taggedEntities text offset).filter (fun e => decide (e.1 = Tag.hunk))).map (fun e => e.2))
      ((entsOf text offset (sections text)).map (fun e => e.2))
    rw [hents, ← List.map_append, ← List.map_append]
    refine List.Perm.map _ ?_
    have hdisj1 : ∀ (x : Tag × TextRange),
        ¬((decide (x.1 = Tag.diff) = true) ∧ (decide (x.1 = Tag.hunk) = true)) := by
      intro x ⟨h1, h2⟩
      simp only [decide_eq_true_eq] at h1 h2
      rw [h1] at h2
      exact Tag.noConfusion h2
    have hdisj2 : ∀ (x : Tag × TextRange),
        ¬((decide (x.1 = Tag.commit) = true) ∧
          ((decide (x.1 = Tag.diff) || decide (x.1 = Tag.hunk)) = true)) := by
      intro x ⟨h1, h2⟩
      simp only [decide_eq_true_eq, Bool.or_eq_true] at h1 h2
      rcases h2 with h2 | h2 <;> rw [h1] at h2 <;> exact Tag.noConfusion h2
    have e1 := filter_or_perm _ _ hdisj1 (entsOf text offset (sections text))
    have e2 := filter_or_perm _ _ hdisj2 (entsOf text offset (sections text))
    have hall : (entsOf text offset (sections text)).filter
        (fun x => decide (x.1 = Tag.commit) ||
          (decide (x.1 = Tag.diff) || decide (x.1 = Tag.hunk))) =
        entsOf text offset (sections text) := by
      rw [List.filter_eq_self]
      intro e he
      have hne := entsOf_fst_ne_END text offset he
      cases ht : e.1 <;> simp_all
    rw [List.append_assoc]
    exact ((List.Perm.append_left _ e1).trans e2).trans (by rw [hall])
  have hsorted := sortByKey_sorted TextRange.a
    ((SplittedDiff.from_string text offset).commits ++
      (SplittedDiff.from_string text offset).headers ++
      (SplittedDiff.from_string text offset).hunks)
  have hstrict : ((entsOf text offset (sections text)).map (fun e => e.2)).Pairwise
      (fun a b => a.a < b.a) := by
    rw [List.pairwise_map]
    exact hpw.imp (fun h => h.2)
  exact sorted_perm_eq TextRange.a
    ((sortByKey_perm TextRange.a _).trans hperm) hsorted hstrict

theorem from_string_collection_pairwise (text : List Char) (offset : Int)
    (p : Tag × TextRange → Bool) :
    ((((taggedEntities text offset).filter p).map (fun e => e.2)).Pairwise
      (fun x y => x.a < y.a ∧ x.b ≤ y.a)) := by
  rw [taggedEntities_eq_entsOf, List.pairwise_map]
  exact ((entsOf_pairwise text offset (sections text) (sections_sorted text)
    (fun x hx => (sections_mem hx).1)).filter p).imp (fun h => ⟨h.2, h.1⟩)

/-! ## Claim C1: the partition invariant of `from_string` -/

/-- C1: for every text and offset, each of the three collections of
`SplittedDiff.from_string(text, offset)` is strictly ordered by ascending start
offset and pairwise non-overlapping; merged and sorted by start, the entities form a
contiguous run with no gaps and no overlaps — each entity's end equals the next
entity's start — starting at the first recognized marker (plus offset) and reaching
the end of the input (the final end offset is `len(text) + 1 + offset`); no entity
covers any text before the first marker. -/
theorem C1_partition_invariant : ∀ (text : List Char) (offset : Int),
    ((SplittedDiff.from_string text offset).commits.Pairwise
      (fun x y => x.a < y.a ∧ x.b ≤ y.a)) ∧
    ((SplittedDiff.from_string text offset).headers.Pairwise
      (fun x y => x.a < y.a ∧ x.b ≤ y.a)) ∧
    ((SplittedDiff.from_string text offset).hunks.Pairwise
      (fun x y => x.a < y.a ∧ x.b ≤ y.a)) ∧
    List.Chain' (fun x y => x.b = y.a) (SplittedDiff.from_string text offset).merged ∧
    ((SplittedDiff.from_string text offset).merged.head?.map TextRange.a =
      (sections text).head?.map (fun s => (s.2 : Int) + offset)) ∧
    ((SplittedDiff.from_string text offset).merged.getLast?.map TextRange.b =
      (sections text).head?.map (fun _ => (text.length : Int) + 1 + offset)) ∧
    (∀ e ∈ (SplittedDiff.from_string text offset).merged,
      ∀ s0, (sections text).head? = some s0 → (s0.2 : Int) + offset ≤ e.a) := by
  intro text offset
  refine ⟨from_string_collection_pairwise text offset _,
    from_string_collection_pairwise text offset _,
    from_string_collection_pairwise text offset _, ?_, ?_, ?_, ?_⟩
  · rw [from_string_merged_eq, List.chain'_map]
    exact entsOf_chain text offset (sections text)
  · rw [from_string_merged_eq, List.head?_map, Option.map_map]
    exact entsOf_head_a text offset (sections text)
  · cases hsec : sections text with
    | nil => rw [from_string_merged_eq, hsec]; rfl
    | cons s0 rest =>
      obtain ⟨s, hs1, hs2⟩ := entsOf_getLast text offset (s0 :: rest) (by simp)
      rw [from_string_merged_eq, hsec, List.getLast?_map, hs2]
      simp only [Option.map_some', List.head?_cons, Option.some_inj]
      show ((text.length + 1 : Nat) : Int) + offset = (text.length : Int) + 1 + offset
      push_cast
      ring
  · intro e he s0 hs0
    rw [from_string_merged_eq] at he
    obtain ⟨te, hte, hsnd⟩ := List.mem_map.mp he
    cases hsec : sections text with
    | nil => rw [hsec] at hs0; exact absurd hs0 (by simp)
    | cons s1 rest =>
      have hs0' : s1 = s0 := by
        rw [hsec] at hs0
        simpa using hs0
      rw [hsec, hs0'] at hte
      obtain ⟨t0, p0⟩ := s0
      have hshape : ∃ e0 tl, entsOf text offset ((t0, p0) :: rest) = e0 :: tl ∧
          e0.2.a = (p0 : Int) + offset := by
        cases rest with
        | nil => exact ⟨_, _, rfl, rfl⟩
        | cons y rest2 =>
          obtain ⟨t', s'⟩ := y
          exact ⟨_, _, rfl, rfl⟩
      obtain ⟨e0, tl, hsh, he0a⟩ := hshape
      have hpw := entsOf_pairwise text offset ((t0, p0) :: rest)
        (by rw [← hs0', ← hsec]; exact sections_sorted text)
        (by rw [← hs0', ← hsec]; exact fun x hx => (sections_mem hx).1)
      rw [hsh] at hpw hte
      rcases List.mem_cons.mp hte with h | h
      · rw [← hsnd, h, he0a]
      · have := (List.pairwise_cons.mp hpw).1 te h
        rw [← hsnd, ← he0a]
        exact le_of_lt this.2

/-- Witness for C1 on a concrete three-entity log-style diff, with offset 2. -/
theorem C1_witness :
    (⟨("@@ -1 +1 @@\nz").toList, 18, 32⟩ : TextRange) ∈
      (SplittedDiff.from_string (("commit x\ndiff y\n@@ -1 +1 @@\nz").toList) 2).merged ∧
    (sections (("commit x\ndiff y\n@@ -1 +1 @@\nz").toList)).head? = some (Tag.commit, 0) ∧
    (((Tag.commit, 0) : Tag × Nat).2 : Int) + 2 ≤
      (⟨("@@ -1 +1 @@\nz").toList, 18, 32⟩ : TextRange).a :=
  ⟨by decide, by decide,
   (C1_partition_invariant (("commit x\ndiff y\n@@ -1 +1 @@\nz").toList) 2).2.2.2.2.2.2
     ⟨("@@ -1 +1 @@\nz").toList, 18, 32⟩ (by decide) (Tag.commit, 0) (by decide)⟩

/-! ## Claim C6: `hunk_for_pt` half-open semantics -/

theorem from_string_mem_a_lt_b (text : List Char) (offset : Int) (p : Tag × TextRange → Bool) :
    ∀ x ∈ ((taggedEntities text offset).filter p).map (fun e => e.2), x.a < x.b := by
  intro x hx
  rw [taggedEntities_eq_entsOf] at hx
  obtain ⟨te, htef, hsnd⟩ := List.mem_map.mp hx
  have hte := List.mem_of_mem_filter htef
  rw [← hsnd]
  exact entsOf_a_lt_b text offset _ (sections_sorted text)
    (fun y hy => (sections_mem hy).1) te hte

/-- C6: `hunk_for_pt` returns the first hunk whose half-open interval
`[a, b)` contains `pt` (none iff no hunk's interval contains `pt`); consequently on
any parsed structure, for every hunk `h`, `hunk_for_pt(h.a)` returns `h` and
`hunk_for_pt(h.b)` does not return `h`. -/
theorem C6_hunk_for_pt_half_open :
    (∀ (d : SplittedDiff) (pt : Int) (h : TextRange), d.hunk_for_pt pt = some h →
      (h.a ≤ pt ∧ pt < h.b) ∧ ∃ u v, d.hunks = u ++ h :: v ∧
        ∀ y ∈ u, ¬(y.a ≤ pt ∧ pt < y.b)) ∧
    (∀ (d : SplittedDiff) (pt : Int), d.hunk_for_pt pt = none ↔
      ∀ h ∈ d.hunks, ¬(h.a ≤ pt ∧ pt < h.b)) ∧
    (∀ (text : List Char) (offset : Int) (h : TextRange),
      h ∈ (SplittedDiff.from_string text offset).hunks →
      (SplittedDiff.from_string text offset).hunk_for_pt h.a = some h ∧
      (SplittedDiff.from_string text offset).hunk_for_pt h.b ≠ some h) := by
  refine ⟨?_, ?_, ?_⟩
  · intro d pt h hf
    obtain ⟨u, v, hd, hu, hp⟩ := find?_some_split _ _ _ hf
    refine ⟨by simpa using hp, u, v, hd, ?_⟩
    intro y hy
    have := hu y hy
    simpa using this
  · intro d pt
    unfold SplittedDiff.hunk_for_pt
    rw [List.find?_eq_none]
    constructor
    · intro hn h hm hc
      exact hn h hm (by simpa using hc)
    · intro hn h hm hc
      exact hn h hm (by simpa using hc)
  · intro text offset h hm
    have hlt := from_string_mem_a_lt_b text offset (fun e => decide (e.1 = Tag.hunk)) h hm
    have hpw := from_string_collection_pairwise text offset (fun e => decide (e.1 = Tag.hunk))
    obtain ⟨u, v, hd⟩ := List.append_of_mem hm
    have hpw' : ((u ++ h :: v).Pairwise (fun x y => x.a < y.a ∧ x.b ≤ y.a)) := by
      rw [← hd]
      exact hpw
    have hurel : ∀ y ∈ u, y.a < h.a ∧ y.b ≤ h.a :=
      fun y hy => (List.pairwise_append.mp hpw').2.2 y hy h (by simp)
    constructor
    · show (SplittedDiff.from_string text offset).hunks.find?
        (fun x => decide (x.a ≤ h.a ∧ h.a < x.b)) = some h
      rw [hd, find?_append_first _ _ (fun y hy => by
        simp only [decide_eq_false_iff_not]
        intro hc
        exact absurd hc.2 (not_lt.mpr (hurel y hy).2))]
      rw [List.find?_cons_of_pos _ (by
        simp only [decide_eq_true_eq]
        exact ⟨le_refl _, hlt⟩)]
    · intro hc
      have := List.find?_some hc
      simp only [decide_eq_true_eq] at this
      exact absurd this.2 (lt_irrefl _)

/-- Witness for C6 on a one-hunk diff. -/
theorem C6_witness :
    (⟨("@@ -1 +1 @@\nx").toList, 0, 14⟩ : TextRange) ∈
      (SplittedDiff.from_string (("@@ -1 +1 @@\nx").toList) 0).hunks ∧
    (SplittedDiff.from_string (("@@ -1 +1 @@\nx").toList) 0).hunk_for_pt
      (⟨("@@ -1 +1 @@\nx").toList, 0, 14⟩ : TextRange).a =
      some ⟨("@@ -1 +1 @@\nx").toList, 0, 14⟩ ∧
    (SplittedDiff.from_string (("@@ -1 +1 @@\nx").toList) 0).hunk_for_pt
      (⟨("@@ -1 +1 @@\nx").toList, 0, 14⟩ : TextRange).b ≠
      some ⟨("@@ -1 +1 @@\nx").toList, 0, 14⟩ :=
  ⟨by decide,
   (C6_hunk_for_pt_half_open.2.2 (("@@ -1 +1 @@\nx").toList) 0
     ⟨("@@ -1 +1 @@\nx").toList, 0, 14⟩ (by decide)).1,
   (C6_hunk_for_pt_half_open.2.2 (("@@ -1 +1 @@\nx").toList) 0
     ⟨("@@ -1 +1 @@\nx").toList, 0, 14⟩ (by decide)).2⟩

/-! ## Claim C10: the `len(text) + 1` sentinel -/

/-- C10: for every text with at least one recognized marker, the last entity
produced by the scan ends at `len(text) + 1 + offset` — one past the end of input —
so it violates the default relation `b = a + len(entity.text)` by exactly 1, and
its half-open interval contains the position `len(text) + offset`; when that last
entity is a hunk, `hunk_for_pt(len(text) + offset)` returns it even though that
offset addresses no character. -/
theorem C10_last_entity_sentinel : ∀ (text : List Char) (offset : Int),
    sections text ≠ [] →
    ∀ e, (taggedEntities text offset).getLast? = some e →
      (e.2.b = (text.length : Int) + 1 + offset ∧
       e.2.b = e.2.a + e.2.text.length + 1 ∧
       e.2.a ≤ (text.length : Int) + offset ∧ (text.length : Int) + offset < e.2.b) ∧
      (e.1 = Tag.hunk →
        (SplittedDiff.from_string text offset).hunk_for_pt ((text.length : Int) + offset) =
          some e.2) := by
  intro text offset hne e he
  rw [taggedEntities_eq_entsOf] at he
  obtain ⟨s, hs1, hs2⟩ := entsOf_getLast text offset (sections text) hne
  rw [hs2] at he
  have he' := Option.some_inj.mp he
  have hsmem : s ∈ sections text := getLast?_mem hs1
  have hslt : s.2 < text.length := (sections_mem hsmem).1
  have htlen : (pySlice text s.2 (text.length + 1)).length = text.length - s.2 := by
    unfold pySlice
    rw [List.length_take, List.length_drop]
    omega
  have hb : e.2.b = (text.length : Int) + 1 + offset := by
    rw [← he']
    show ((text.length + 1 : Nat) : Int) + offset = (text.length : Int) + 1 + offset
    push_cast
    ring
  have hba : e.2.b = e.2.a + e.2.text.length + 1 := by
    rw [← he']
    show ((text.length + 1 : Nat) : Int) + offset =
      (s.2 : Int) + offset + (pySlice text s.2 (text.length + 1)).length + 1
    rw [htlen]
    push_cast
    omega
  have hax : e.2.a ≤ (text.length : Int) + offset := by
    rw [← he']
    show (s.2 : Int) + offset ≤ (text.length : Int) + offset
    omega
  have hbx : (text.length : Int) + offset < e.2.b := by
    rw [hb]
    omega
  refine ⟨⟨hb, hba, hax, hbx⟩, ?_⟩
  · intro htag
    -- decompose the entity list around its last element
    have hentsne : entsOf text offset (sections text) ≠ [] := by
      intro hnil
      rw [hnil] at hs2
      exact Option.noConfusion hs2
    have hdecomp : entsOf text offset (sections text) =
        (entsOf text offset (sections text)).dropLast ++ [e] := by
      have hgl : (entsOf text offset (sections text)).getLast hentsne = e := by
        have hq := List.getLast?_eq_getLast (entsOf text offset (sections text)) hentsne
        rw [hq] at hs2
        rw [Option.some_inj.mp hs2]
        exact he'
      rw [← hgl]
      exact (List.dropLast_append_getLast hentsne).symm
    have hpw := entsOf_pairwise text offset (sections text) (sections_sorted text)
      (fun y hy => (sections_mem hy).1)
    have hurel : ∀ y ∈ (entsOf text offset (sections text)).dropLast, y.2.b ≤ e.2.a := by
      intro y hy
      have hpw' := hpw
      rw [hdecomp] at hpw'
      exact ((List.pairwise_append.mp hpw').2.2 y hy e (by simp)).1
    have hhunks : (SplittedDiff.from_string text offset).hunks =
        (((entsOf text offset (sections text)).dropLast.filter
          (fun x => decide (x.1 = Tag.hunk))).map (fun x => x.2)) ++ [e.2] := by
      show ((taggedEntities text offset).filter (fun x => decide (x.1 = Tag.hunk))).map
        (fun x => x.2) = _
      rw [taggedEntities_eq_entsOf, hdecomp, List.filter_append, List.map_append]
      simp [List.filter_cons, htag]
    show (SplittedDiff.from_string text offset).hunks.find?
      (fun x => decide (x.a ≤ (text.length : Int) + offset ∧ (text.length : Int) + offset < x.b))
      = some e.2
    rw [hhunks, find?_append_first _ _ ?side]
    case side =>
      intro y hy
      obtain ⟨ty, htyf, hsnd⟩ := List.mem_map.mp hy
      have hty := List.mem_of_mem_filter htyf
      have hyb := hurel ty hty
      simp only [decide_eq_false_iff_not]
      intro hc
      rw [← hsnd] at hc
      have : ty.2.b ≤ (text.length : Int) + offset := hyb.trans hax
      omega
    rw [List.find?_cons_of_pos _ (by
      simp only [decide_eq_true_eq]
      exact ⟨hax, hbx⟩)]

/-- Witness for C10 on a diff that ends inside its only hunk. -/
theorem C10_witness :
    sections (("@@ -1 +1 @@\nx").toList) ≠ [] ∧
    (taggedEntities (("@@ -1 +1 @@\nx").toList) 0).getLast? =
      some (Tag.hunk, ⟨("@@ -1 +1 @@\nx").toList, 0, 14⟩) ∧
    (((14 : Int) = ((("@@ -1 +1 @@\nx").toList).length : Int) + 1 + 0 ∧
      (14 : Int) = 0 + ((("@@ -1 +1 @@\nx").toList).length : Int) + 1 ∧
      (0 : Int) ≤ ((("@@ -1 +1 @@\nx").toList).length : Int) + 0 ∧
      ((("@@ -1 +1 @@\nx").toList).length : Int) + 0 < (14 : Int)) ∧
     (Tag.hunk = Tag.hunk →
       (SplittedDiff.from_string (("@@ -1 +1 @@\nx").toList) 0).hunk_for_pt
           (((("@@ -1 +1 @@\nx").toList).length : Int) + 0) =
         some ⟨("@@ -1 +1 @@\nx").toList, 0, 14⟩)) :=
  ⟨by decide, by decide,
   C10_last_entity_sentinel (("@@ -1 +1 @@\nx").toList) 0 (by decide)
     (Tag.hunk, ⟨("@@ -1 +1 @@\nx").toList, 0, 14⟩) (by decide)⟩

/-! ## Claim C7: `hunks_for_head` -/

theorem retag (t : Tag) : ∀ (l : List (Tag × TextRange)),
    ((l.filter (fun e => decide (e.1 = t))).map (fun e => e.2)).map (fun h => (t, h)) =
      l.filter (fun e => decide (e.1 = t)) := by
  intro l
  induction l with
  | nil => rfl
  | cons x xs ih =>
    rw [List.filter_cons]
    cases hx : decide (x.1 = t) with
    | false => simpa using ih
    | true =>
      have hxt : x.1 = t := of_decide_eq_true hx
      simp only [if_true, List.map_cons, ih]
      rw [show (t, x.2) = x by rw [← hxt]]

theorem dropWhile_cons_head {α} {p : α → Bool} {l : List α} {x : α} {xs : List α}
    (h : l.dropWhile p = x :: xs) : p x = false := by
  induction l with
  | nil => simp [List.dropWhile] at h
  | cons y ys ih =>
    rw [List.dropWhile_cons] at h
    split at h
    · exact ih h
    · rename_i hny
      have := (List.cons_eq_cons.mp h).1
      rw [← this]
      exact Bool.eq_false_iff.mpr hny

/-- The merged `sorted(headers + hunks, key=a)` sequence of a parsed diff is exactly
the scan's entity sequence restricted to header and hunk entities, in document
order. -/
theorem merged_tagged_eq (text : List Char) (offset : Int) :
    sortByKey (fun x => x.2.a)
      (((SplittedDiff.from_string text offset).headers.map (fun h => (Tag.diff, h))) ++
        ((SplittedDiff.from_string text offset).hunks.map (fun h => (Tag.hunk, h)))) =
      (entsOf text offset (sections text)).filter
        (fun e => decide (e.1 = Tag.diff) || decide (e.1 = Tag.hunk)) := by
  have hpw := entsOf_pairwise text offset (sections text) (sections_sorted text)
    (fun x hx => (sections_mem hx).1)
  have hhd : (SplittedDiff.from_string text offset).headers.map (fun h => (Tag.diff, h)) =
      (entsOf text offset (sections text)).filter (fun e => decide (e.1 = Tag.diff)) := by
    show (((taggedEntities text offset).filter (fun e => decide (e.1 = Tag.diff))).map
      (fun e => e.2)).map (fun h => (Tag.diff, h)) = _
    rw [taggedEntities_eq_entsOf]
    exact retag Tag.diff _
  have hhk : (SplittedDiff.from_string text offset).hunks.map (fun h => (Tag.hunk, h)) =
      (entsOf text offset (sections text)).filter (fun e => decide (e.1 = Tag.hunk)) := by
    show (((taggedEntities text offset).filter (fun e => decide (e.1 = Tag.hunk))).map
      (fun e => e.2)).map (fun h => (Tag.hunk, h)) = _
    rw [taggedEntities_eq_entsOf]
    exact retag Tag.hunk _
  have hdisj : ∀ (x : Tag × TextRange),
      ¬((decide (x.1 = Tag.diff) = true) ∧ (decide (x.1 = Tag.hunk) = true)) := by
    intro x ⟨h1, h2⟩
    simp only [decide_eq_true_eq] at h1 h2
    rw [h1] at h2
    exact Tag.noConfusion h2
  have hperm : List.Perm
      (((SplittedDiff.from_string text offset).headers.map (fun h => (Tag.diff, h))) ++
        ((SplittedDiff.from_string text offset).hunks.map (fun h => (Tag.hunk, h))))
      ((entsOf text offset (sections text)).filter
        (fun e => decide (e.1 = Tag.diff) || decide (e.1 = Tag.hunk))) := by
    rw [hhd, hhk]
    exact filter_or_perm _ _ hdisj _
  refine sorted_perm_eq (fun x => x.2.a)
    ((sortByKey_perm _ _).trans hperm) (sortByKey_sorted _ _) ?_
  exact (hpw.filter _).imp (fun h => h.2)

theorem headers_mem_tagged {text : List Char} {offset : Int} {h2 : TextRange}
    (hm : h2 ∈ (SplittedDiff.from_string text offset).headers) :
    (Tag.diff, h2) ∈ (entsOf text offset (sections text)).filter
      (fun e => decide (e.1 = Tag.diff) || decide (e.1 = Tag.hunk)) := by
  have hm' : h2 ∈ ((taggedEntities text offset).filter
      (fun e => decide (e.1 = Tag.diff))).map (fun e => e.2) := hm
  rw [taggedEntities_eq_entsOf] at hm'
  obtain ⟨te, htef, hsnd⟩ := List.mem_map.mp hm'
  obtain ⟨hmem, hdec⟩ := List.mem_filter.mp htef
  have hfst : te.1 = Tag.diff := of_decide_eq_true hdec
  have hte : te = (Tag.diff, h2) := by
    rw [← hsnd, ← hfst]
  rw [← hte]
  exact List.mem_filter.mpr ⟨hmem, by rw [hfst]; simp⟩

theorem tagged_diff_mem_headers {text : List Char} {offset : Int} {e : Tag × TextRange}
    (he : e ∈ (entsOf text offset (sections text)).filter
      (fun x => decide (x.1 = Tag.diff) || decide (x.1 = Tag.hunk)))
    (ht : e.1 = Tag.diff) :
    e.2 ∈ (SplittedDiff.from_string text offset).headers := by
  show e.2 ∈ ((taggedEntities text offset).filter
    (fun x => decide (x.1 = Tag.diff))).map (fun x => x.2)
  rw [taggedEntities_eq_entsOf]
  exact List.mem_map_of_mem _
    (List.mem_filter.mpr ⟨List.mem_of_mem_filter he, by rw [ht]; simp⟩)

/-- C7: on every parsed diff, `hunks_for_head(head)` yields, in ascending start
order, exactly the hunks `h` with `head.a < h.a` such that no other file header
starts strictly between `head.a` and `h.a`; and on any structure the result is
empty when the located header is the last element of the merged sequence or is
immediately followed by another header. -/
theorem C7_hunks_for_head :
    (∀ (text : List Char) (offset : Int) (head : TextRange),
      head ∈ (SplittedDiff.from_string text offset).headers →
      (SplittedDiff.from_string text offset).hunks_for_head head =
        (SplittedDiff.from_string text offset).hunks.filter
          (fun h => decide (head.a < h.a ∧
            ∀ h2 ∈ (SplittedDiff.from_string text offset).headers,
              ¬(head.a < h2.a ∧ h2.a < h.a)))) ∧
    (∀ (d : SplittedDiff) (head : TextRange),
      ((sortByKey (fun x => x.2.a)
          ((d.headers.map (fun h => (Tag.diff, h))) ++
            (d.hunks.map (fun h => (Tag.hunk, h))))).dropWhile
        (fun x => decide (¬ x.2 = head))).drop 1 = [] →
      d.hunks_for_head head = []) ∧
    (∀ (d : SplittedDiff) (head : TextRange) (t : Tag × TextRange)
        (rest : List (Tag × TextRange)),
      ((sortByKey (fun x => x.2.a)
          ((d.headers.map (fun h => (Tag.diff, h))) ++
            (d.hunks.map (fun h => (Tag.hunk, h))))).dropWhile
        (fun x => decide (¬ x.2 = head))).drop 1 = t :: rest →
      t.1 = Tag.diff → d.hunks_for_head head = []) := by
  refine ⟨?_, ?_, ?_⟩
  · intro text offset head hmem
    have hpwE : ((entsOf text offset (sections text)).filter
        (fun e => decide (e.1 = Tag.diff) || decide (e.1 = Tag.hunk))).Pairwise
        (fun x y => x.2.a < y.2.a) :=
      ((entsOf_pairwise text offset (sections text) (sections_sorted text)
        (fun x hx => (sections_mem hx).1)).filter _).imp (fun h => h.2)
    obtain ⟨pre, post, hsplit⟩ := List.append_of_mem (headers_mem_tagged hmem)
    have hpwE' := hpwE
    rw [hsplit] at hpwE'
    have hpa := List.pairwise_append.mp hpwE'
    have hpre_rel : ∀ y ∈ pre, y.2.a < head.a :=
      fun y hy => hpa.2.2 y hy (Tag.diff, head) (by simp)
    have hpost_rel : ∀ y ∈ post, head.a < y.2.a :=
      fun y hy => (List.pairwise_cons.mp hpa.2.1).1 y hy
    have hppost : post.Pairwise (fun x y => x.2.a < y.2.a) :=
      (List.pairwise_cons.mp hpa.2.1).2
    -- the dropwhile locates the header
    have hdw : (((entsOf text offset (sections text)).filter
        (fun e => decide (e.1 = Tag.diff) || decide (e.1 = Tag.hunk))).dropWhile
          (fun x => decide (¬ x.2 = head))) = (Tag.diff, head) :: post := by
      rw [hsplit]
      apply dropWhile_append_cons
      · intro y hy
        have hrel := hpre_rel y hy
        apply decide_eq_true
        intro heq
        rw [heq] at hrel
        exact absurd hrel (lt_irrefl _)
      · simp
    -- the hunks satisfying the claim's property, inside the merged sequence
    have hprd_tw : ∀ x ∈ post.takeWhile (fun x => decide (x.1 = Tag.hunk)),
        (decide (head.a < x.2.a ∧
          ∀ h2 ∈ (SplittedDiff.from_string text offset).headers,
            ¬(head.a < h2.a ∧ h2.a < x.2.a))) = true := by
      intro x hx
      have hxpost : x ∈ post := (List.takeWhile_sublist _).subset hx
      apply decide_eq_true
      refine ⟨hpost_rel x hxpost, ?_⟩
      intro h2 hm2 hcon
      obtain ⟨hlt1, hlt2⟩ := hcon
      have hh2E := headers_mem_tagged hm2
      rw [hsplit] at hh2E
      rcases List.mem_append.mp hh2E with hin | hin
      · have := hpre_rel (Tag.diff, h2) hin
        simp only at this
        omega
      · rcases List.mem_cons.mp hin with hin | hin
        · have hh2 : h2 = head := congrArg Prod.snd hin
          rw [hh2] at hlt1
          exact absurd hlt1 (lt_irrefl _)
        · rw [← List.takeWhile_append_dropWhile
            (p := fun x => decide (x.1 = Tag.hunk)) (l := post)] at hin
          rcases List.mem_append.mp hin with hin | hin
          · have := List.mem_takeWhile_imp hin
            simp only [decide_eq_true_eq] at this
            exact Tag.noConfusion this
          · have hporder : post.Pairwise (fun x y => x.2.a < y.2.a) := hppost
            rw [← List.takeWhile_append_dropWhile
              (p := fun x => decide (x.1 = Tag.hunk)) (l := post)] at hporder
            have := (List.pairwise_append.mp hporder).2.2 x hx (Tag.diff, h2) hin
            simp only at this
            omega
    have hdw0 : ∀ y ∈ post.dropWhile (fun x => decide (x.1 = Tag.hunk)),
        ¬ ((decide (y.1 = Tag.hunk) && decide (head.a < y.2.a ∧
          ∀ h2 ∈ (SplittedDiff.from_string text offset).headers,
            ¬(head.a < h2.a ∧ h2.a < y.2.a))) = true) := by
      intro y hy
      cases hdwshape : post.dropWhile (fun x => decide (x.1 = Tag.hunk)) with
      | nil =>
        rw [hdwshape] at hy
        exact absurd hy (List.not_mem_nil y)
      | cons w dw' =>
        have hwk0 := dropWhile_cons_head hdwshape
        have hwk : decide (w.1 = Tag.hunk) = false := hwk0
        have hw_post : w ∈ post := by
          have : w ∈ post.dropWhile (fun x => decide (x.1 = Tag.hunk)) := by
            rw [hdwshape]; simp
          exact (List.dropWhile_sublist _).subset this
        have hwE : w ∈ (entsOf text offset (sections text)).filter
            (fun e => decide (e.1 = Tag.diff) || decide (e.1 = Tag.hunk)) := by
          rw [hsplit]
          exact List.mem_append.mpr (Or.inr (List.mem_cons.mpr (Or.inr hw_post)))
        have hwdiff : w.1 = Tag.diff := by
          have hor := (List.mem_filter.mp hwE).2
          rw [Bool.or_eq_true] at hor
          rcases hor with h | h
          · exact of_decide_eq_true h
          · rw [h] at hwk
            exact Bool.noConfusion hwk
        have hwh : w.2 ∈ (SplittedDiff.from_string text offset).headers :=
          tagged_diff_mem_headers hwE hwdiff
        rw [hdwshape] at hy
        rcases List.mem_cons.mp hy with hy | hy
        · rw [hy, hwk]
          simp
        · cases hky : decide (y.1 = Tag.hunk) with
          | false => simp [hky]
          | true =>
            have h1 : head.a < w.2.a := hpost_rel w hw_post
            have h2 : w.2.a < y.2.a := by
              have hpdw : (post.dropWhile (fun x => decide (x.1 = Tag.hunk))).Pairwise
                  (fun x y => x.2.a < y.2.a) := hppost.sublist (List.dropWhile_sublist _)
              rw [hdwshape] at hpdw
              exact (List.pairwise_cons.mp hpdw).1 y hy
            have hprd : (decide (head.a < y.2.a ∧
                ∀ h2 ∈ (SplittedDiff.from_string text offset).headers,
                  ¬(head.a < h2.a ∧ h2.a < y.2.a))) = false := by
              apply decide_eq_false
              intro hcon
              exact hcon.2 w.2 hwh ⟨h1, h2⟩
            rw [hprd]
            simp
    -- assemble
    show ((((sortByKey (fun x => x.2.a)
        (((SplittedDiff.from_string text offset).headers.map (fun h => (Tag.diff, h))) ++
          ((SplittedDiff.from_string text offset).hunks.map (fun h => (Tag.hunk, h))))).dropWhile
        (fun x => decide (¬ x.2 = head))).drop 1).takeWhile
        (fun x => decide (x.1 = Tag.hunk))).map (fun x => x.2) = _
    rw [merged_tagged_eq text offset, hdw]
    rw [List.drop_succ_cons, List.drop_zero]
    have hR : (SplittedDiff.from_string text offset).hunks.filter
        (fun h => decide (head.a < h.a ∧
          ∀ h2 ∈ (SplittedDiff.from_string text offset).headers,
            ¬(head.a < h2.a ∧ h2.a < h.a))) =
        (((entsOf text offset (sections text)).filter
          (fun e => decide (e.1 = Tag.diff) || decide (e.1 = Tag.hunk))).filter
          (fun e => decide (e.1 = Tag.hunk) && decide (head.a < e.2.a ∧
            ∀ h2 ∈ (SplittedDiff.from_string text offset).headers,
              ¬(head.a < h2.a ∧ h2.a < e.2.a)))).map (fun e => e.2) := by
      rw [show (SplittedDiff.from_string text offset).hunks =
        ((entsOf text offset (sections text)).filter
          (fun e => decide (e.1 = Tag.hunk))).map (fun e => e.2) from by
          rw [← taggedEntities_eq_entsOf]; rfl]
      rw [List.filter_map, List.filter_filter, List.filter_filter]
      congr 1
      apply List.filter_congr
      intro a _
      cases hdk : decide (a.1 = Tag.hunk) <;>
        simp [Function.comp, hdk]
    rw [hR]
    congr 1
    -- core equality: the filtered merged sequence is the takewhile prefix
    rw [hsplit, List.filter_append]
    have hpre0 : pre.filter (fun e => decide (e.1 = Tag.hunk) && decide (head.a < e.2.a ∧
        ∀ h2 ∈ (SplittedDiff.from_string text offset).headers,
          ¬(head.a < h2.a ∧ h2.a < e.2.a))) = [] := by
      rw [List.filter_eq_nil_iff]
      intro y hy hcon
      rw [Bool.and_eq_true] at hcon
      have := of_decide_eq_true hcon.2
      have hrel := hpre_rel y hy
      have := this.1
      omega
    rw [hpre0, List.nil_append, List.filter_cons]
    have hhd0 : (decide ((Tag.diff, head).1 = Tag.hunk) && decide (head.a < (Tag.diff, head).2.a ∧
        ∀ h2 ∈ (SplittedDiff.from_string text offset).headers,
          ¬(head.a < h2.a ∧ h2.a < (Tag.diff, head).2.a))) = false := by
      simp
    rw [hhd0]
    simp only [Bool.false_eq_true, if_false]
    conv_rhs => rw [← List.takeWhile_append_dropWhile
      (p := fun x => decide (x.1 = Tag.hunk)) (l := post)]
    rw [List.filter_append]
    rw [List.filter_eq_self.mpr (fun x hx => by
      rw [Bool.and_eq_true]
      have h1 := List.mem_takeWhile_imp hx
      exact ⟨h1, hprd_tw x hx⟩)]
    rw [List.filter_eq_nil_iff.mpr hdw0, List.append_nil]
  · intro d head hd0
    show ((((sortByKey (fun x => x.2.a)
        ((d.headers.map (fun h => (Tag.diff, h))) ++
          (d.hunks.map (fun h => (Tag.hunk, h))))).dropWhile
        (fun x => decide (¬ x.2 = head))).drop 1).takeWhile
        (fun x => decide (x.1 = Tag.hunk))).map (fun x => x.2) = []
    rw [hd0]
    rfl
  · intro d head t rest hd0 ht
    show ((((sortByKey (fun x => x.2.a)
        ((d.headers.map (fun h => (Tag.diff, h))) ++
          (d.hunks.map (fun h => (Tag.hunk, h))))).dropWhile
        (fun x => decide (¬ x.2 = head))).drop 1).takeWhile
        (fun x => decide (x.1 = Tag.hunk))).map (fun x => x.2) = []
    rw [hd0, List.takeWhile_cons]
    rw [show (decide (t.1 = Tag.hunk)) = false from by
      apply decide_eq_false
      rw [ht]
      exact Tag.noConfusion]
    rfl

/-- Witness for C7 on a two-file diff: the first header owns one hunk, the second
header (immediately followed by a third header) owns none. -/
theorem C7_witness :
    ((⟨("diff a\n").toList, 0, 7⟩ : TextRange) ∈
      (SplittedDiff.from_string (("diff a\n@@ -1 +1 @@\nx\ndiff b\ndiff c\n@@ -2 +2 @@\ny").toList) 0).headers) ∧
    (SplittedDiff.from_string
        (("diff a\n@@ -1 +1 @@\nx\ndiff b\ndiff c\n@@ -2 +2 @@\ny").toList) 0).hunks_for_head
      ⟨("diff a\n").toList, 0, 7⟩ =
      (SplittedDiff.from_string
        (("diff a\n@@ -1 +1 @@\nx\ndiff b\ndiff c\n@@ -2 +2 @@\ny").toList) 0).hunks.filter
        (fun h => decide ((⟨("diff a\n").toList, 0, 7⟩ : TextRange).a < h.a ∧
          ∀ h2 ∈ (SplittedDiff.from_string
            (("diff a\n@@ -1 +1 @@\nx\ndiff b\ndiff c\n@@ -2 +2 @@\ny").toList) 0).headers,
            ¬((⟨("diff a\n").toList, 0, 7⟩ : TextRange).a < h2.a ∧ h2.a < h.a))) :=
  ⟨by decide,
   C7_hunks_for_head.1 (("diff a\n@@ -1 +1 @@\nx\ndiff b\ndiff c\n@@ -2 +2 @@\ny").toList) 0
     ⟨("diff a\n").toList, 0, 7⟩ (by decide)⟩

end ParseDiff
